import Mathlib

/-!
Verification of the MidJourney Discord automation script (`midjourney.py`).

Strings of the Python source are embedded as `List Char`.  The regular
expressions used by the script are small and concrete, so each one is embedded
as an explicit scanning function whose semantics follows Python's `re` module
(leftmost match, greedy quantifiers with backtracking) on the ASCII fragment
the script manipulates; `\s` and `\d` are modelled by their ASCII character
classes and `str.lower` by ASCII lowercasing.
-/

/-- Python strings are modelled as lists of characters. -/
abbrev PyStr := List Char

/-- ASCII whitespace, the characters matched by the regex class `\s`. -/
def pySpace (c : Char) : Bool :=
  c = ' ' || c = '\t' || c = '\n' || c = '\r' || c = '\x0b' || c = '\x0c'

/-- ASCII nonzero decimal digits, the regex class `[1-9]`. -/
def nzDigit (c : Char) : Bool :=
  c = '1' || c = '2' || c = '3' || c = '4' || c = '5' ||
  c = '6' || c = '7' || c = '8' || c = '9'

/-- ASCII decimal digits, the regex class `\d`. -/
def pyDigit (c : Char) : Bool :=
  c = '0' || nzDigit c

/-- `lpre a b` holds when the list `a` is an initial segment of `b`
(the literal-matching step of the embedded regexes). -/
def lpre : List Char → List Char → Bool
  | [], _ => true
  | _ :: _, [] => false
  | a :: as, b :: bs => if a = b then lpre as bs else false

/-- Python's substring test `needle in hay`. -/
def isSubstr (needle : PyStr) : PyStr → Bool
  | [] => lpre needle []
  | c :: cs => lpre needle (c :: cs) || isSubstr needle cs

/-- `re.search`: the matcher is attempted at every start position
(including the empty suffix at the end of the string). -/
def reSearch (m : List Char → Bool) : List Char → Bool
  | [] => m []
  | c :: cs => m (c :: cs) || reSearch m cs

/-- Matcher for the percentage body `(100|[1-9]?\d)%\)` placed right after the
opening parenthesis: alternation of the three shapes the group can take. -/
def matchPct (l : List Char) : Bool :=
  lpre ['1', '0', '0', '%', ')'] l ||
  (match l with
   | a :: b :: r => nzDigit a && pyDigit b && lpre ['%', ')'] r
   | _ => false) ||
  (match l with
   | a :: r => pyDigit a && lpre ['%', ')'] r
   | _ => false)

/-- Anchored matcher for the progress regex `\((100|[1-9]?\d)%\)`. -/
def matchProgressAt (l : List Char) : Bool :=
  match l with
  | c :: r => c = '(' && matchPct r
  | [] => false

/-- Consume a literal from the front of a list, returning the remainder. -/
def dropLit : List Char → List Char → Option (List Char)
  | [], l => some l
  | _ :: _, [] => none
  | a :: as, b :: bs => if a = b then dropLit as bs else none

/-- Anchored matcher for the upscale regex `\*\* - Image #(\d+) <@`:
after the literal, `\d+` is greedy and must be followed by a space, so a
successful match consumes the maximal digit run and then the literal ` <@`. -/
def matchImageNumAt (l : List Char) : Bool :=
  match dropLit ['*', '*', ' ', '-', ' ', 'I', 'm', 'a', 'g', 'e', ' ', '#'] l with
  | none => false
  | some r =>
      !(r.takeWhile pyDigit).isEmpty && lpre [' ', '<', '@'] (r.dropWhile pyDigit)

/-- The tail `.+ \(` of the grid regexes: one or more non-newline characters
followed by the literal ` (` (with backtracking, i.e. any split works). -/
def dotPlusThen (lit : List Char) : List Char → Bool
  | [] => false
  | c :: cs => !(c = '\n') && (lpre lit cs || dotPlusThen lit cs)

/-- Anchored matcher for the grid regex ` - @.+ \(`. -/
def matchGridAt (l : List Char) : Bool :=
  match dropLit [' ', '-', ' ', '@'] l with
  | none => false
  | some r => dotPlusThen [' ', '('] r

/-- Anchored matcher for the variations regex ` - Variations by @.+ \(`. -/
def matchVariationsAt (l : List Char) : Bool :=
  match dropLit
      [' ', '-', ' ', 'V', 'a', 'r', 'i', 'a', 't', 'i', 'o', 'n', 's',
       ' ', 'b', 'y', ' ', '@'] l with
  | none => false
  | some r => dotPlusThen [' ', '('] r

/-- `re.search(progress_regexp, content)` of `_classify_midjourney_message`. -/
def progressSearch (s : PyStr) : Bool := reSearch matchProgressAt s

/-- `re.search(image_number_regexp, content)`. -/
def imageNumSearch (s : PyStr) : Bool := reSearch matchImageNumAt s

/-- `re.search(r" - @.+ \(", content)`. -/
def gridSearch (s : PyStr) : Bool := reSearch matchGridAt s

/-- `re.search(variations_regexp, content)`. -/
def variationsSearch (s : PyStr) : Bool := reSearch matchVariationsAt s

/-- The `MidJourneyImageType` enumeration of the script. -/
inductive MidJourneyImageType where
  | MIDJOURNEY_UPSCALE
  | MIDJOURNEY_GRID
deriving DecidableEq, Repr

/-- The `DiscordMessage` pydantic model: id, text content, image URLs. -/
structure DiscordMessage where
  id : String
  content : PyStr
  images : List PyStr
deriving DecidableEq, Repr

/-- `_classify_midjourney_message`, with the four tests in source order. -/
def _classify_midjourney_message (message : DiscordMessage) :
    Option MidJourneyImageType :=
  if progressSearch message.content then none
  else if 0 < message.images.length && imageNumSearch message.content then
    some .MIDJOURNEY_UPSCALE
  else if 0 < message.images.length && gridSearch message.content then
    some .MIDJOURNEY_GRID
  else if 0 < message.images.length && variationsSearch message.content then
    some .MIDJOURNEY_GRID
  else none

/-- The character class `[^\s]` of the URL regex. -/
def nonspace (c : Char) : Bool := !pySpace c

/-- The leading `<?` of the URL regex `(<?https?:\/\/[^\s]+>?)`: an optional
angle bracket (if the rest fails after consuming `<`, backtracking to the
empty alternative also fails, since `<` is not `h`). -/
def stripAngle : List Char → List Char
  | [] => []
  | c :: t => if c = '<' then t else c :: t

/-- The scheme literal `https://`. -/
def lit8 : List Char := ['h', 't', 't', 'p', 's', ':', '/', '/']

/-- The scheme literal `http://`. -/
def lit7 : List Char := ['h', 't', 't', 'p', ':', '/', '/']

/-- The scheme part `https?:\/\/`: the optional greedy `s?` needs no
backtracking, so it is the alternation of the two literals. -/
def stripScheme (l : List Char) : Option (List Char) :=
  match dropLit lit8 l with
  | some r => some r
  | none => dropLit lit7 l

/-- The trailing `>?` of the URL regex.  After the greedy `[^\s]+` the next
character is never `>` (it is whitespace or the end), so this step is inert;
it is kept for fidelity to the source pattern. -/
def stripGt : List Char → List Char
  | [] => []
  | c :: t => if c = '>' then t else c :: t

/-- Anchored match of the URL regex `(<?https?:\/\/[^\s]+>?)` at the head of
the list; on success returns the remainder after the match. -/
def tryUrlAt (l : List Char) : Option (List Char) :=
  match stripScheme (stripAngle l) with
  | none => none
  | some r =>
      if (r.takeWhile nonspace).isEmpty then none
      else some (stripGt (r.dropWhile nonspace))

/-- The fixed placeholder `"<URL>"` substituted for every URL match. -/
def urlPlaceholder : PyStr := ['<', 'U', 'R', 'L', '>']

/-- The scanning loop of `re.sub`, with explicit fuel to keep the recursion
structural; each step consumes at least one character, so `l.length` fuel is
always enough. -/
def subUrlsF : Nat → List Char → List Char
  | _, [] => []
  | 0, _ :: _ => []
  | fuel + 1, c :: cs =>
    match tryUrlAt (c :: cs) with
    | some r => urlPlaceholder ++ subUrlsF fuel r
    | none => c :: subUrlsF fuel cs

/-- `re.sub(url_pattern, "<URL>", s)`: scan left to right; at each position
replace the leftmost match and continue after it, otherwise keep the
character. -/
def subUrls (l : List Char) : List Char := subUrlsF l.length l

/-- ASCII `str.lower()`. -/
def pyLower (s : PyStr) : PyStr := s.map Char.toLower

/-- `_match_mid_journey_prompt_ignoring_urls`: lowercase both strings,
substitute URLs by the placeholder in both, and test substring containment. -/
def _match_mid_journey_prompt_ignoring_urls (prompt message_content : PyStr) :
    Bool :=
  isSubstr (subUrls (pyLower prompt)) (subUrls (pyLower message_content))

/-- A decoded raster image: declared size plus pixel rows, as produced by
Pillow. -/
structure PILImage where
  width : Nat
  height : Nat
  px : List (List Nat)
deriving DecidableEq, Repr

/-- The size `(width, height)` of an image, as `image.size` in Pillow. -/
def imSize (im : PILImage) : Nat × Nat := (im.width, im.height)

/-- `image.crop((l, t, r, b))`: the result has size `(r - l, b - t)` and
holds the pixel rectangle with those corners. -/
def crop (im : PILImage) (l t r b : Nat) : PILImage :=
  { width := r - l
    height := b - t
    px := ((im.px.drop t).take (b - t)).map fun row => (row.drop l).take (r - l) }

/-- `_split_in_four`: the four quadrant crops, in the fixed order
top-left, top-right, bottom-left, bottom-right. -/
def _split_in_four (image : PILImage) : List PILImage :=
  let width := image.width
  let height := image.height
  [ crop image 0 0 (width / 2) (height / 2),
    crop image (width / 2) 0 width (height / 2),
    crop image 0 (height / 2) (width / 2) height,
    crop image (width / 2) (height / 2) width height ]

/-!
## The message extractor

`MidJourneyAPI.extract_messages` walks the rendered message nodes of the
live page.  Each DOM read that the source performs is embedded as a field of
`RenderedMessage`; a read that can raise a transient Selenium exception
(`StaleElementReferenceException` / `NoSuchElementException` /
`AttributeError`) is wrapped in `DomTry`.
-/

/-- Outcome of a single DOM read: the value, or a raised transient
exception. -/
inductive DomTry (α : Type) where
  | ok (a : α)
  | exn
deriving DecidableEq, Repr

/-- One rendered `li[class*="messageListItem-"]` node.
`idAttr` is `message.get_attribute("id")` (it may raise, and may be `None`);
`contentDiv` is the `.text` of `message.find_element(div.markup…)`, which
raises when the node is stale or missing; `imageAnchors` lists the `href`
attributes of the `a[class*='originalLink-']` anchors found for the
message. -/
structure RenderedMessage where
  idAttr : DomTry (Option String)
  contentDiv : DomTry PyStr
  imageAnchors : List (Option PyStr)
deriving DecidableEq, Repr

/-- `_get_image_url`: the `href` of the first `originalLink-` anchor, or the
empty string when there is no anchor or no attribute (`image_url or ""`). -/
def _get_image_url (imageAnchors : List (Option PyStr)) : PyStr :=
  match imageAnchors with
  | [] => []
  | a :: _ => a.getD []

/-- How `extract_messages` can fail: `ValueError("WebDriver not
initialized")`, or an uncaught Selenium exception reading a content div. -/
inductive ExtractErr where
  | notInitialized
  | domException
deriving DecidableEq, Repr

/-- The per-message loop of `extract_messages`.  A raised id read and a
`None` id are skipped with `continue`; the content-div read is not guarded
by the `try`, so its exception propagates; a message with an empty image URL
is skipped. -/
def extractLoop : List RenderedMessage → Except ExtractErr (List DiscordMessage)
  | [] => .ok []
  | m :: ms =>
    match m.idAttr with
    | .exn => extractLoop ms
    | .ok none => extractLoop ms
    | .ok (some messageId) =>
      match m.contentDiv with
      | .exn => .error .domException
      | .ok textContent =>
        let imageUrl := _get_image_url m.imageAnchors
        if imageUrl.isEmpty then extractLoop ms
        else
          (extractLoop ms).map fun rest =>
            ⟨messageId, textContent, [imageUrl]⟩ :: rest

/-- `MidJourneyAPI.extract_messages`: `None` driver raises `ValueError`;
otherwise the rendered messages are folded by `extractLoop`. -/
def extract_messages (driver : Option (List RenderedMessage)) :
    Except ExtractErr (List DiscordMessage) :=
  match driver with
  | none => .error .notInitialized
  | some messages => extractLoop messages

/-!
## The polling loop

`_wait_for_image` polls `extract_messages`, and on the first qualifying
message downloads its single image, splits it in four and saves the
quadrants.  The network and the image decoder are external collaborators,
modelled as an explicit environment: `get` is `requests.get` (which does not
raise on a non-success HTTP status) and `decode` is `Image.open`, which
fails on a body that is not a recognizable image.
-/

/-- An HTTP response: success flag of the status code, and the raw body. -/
structure HTTPResponse where
  ok : Bool
  body : List Nat
deriving DecidableEq, Repr

/-- The external collaborators of the polling loop. -/
structure FetchEnv where
  get : PyStr → HTTPResponse
  decode : List Nat → Option PILImage

/-- A file written by `image.save`: its path and contents. -/
structure SaveEvent where
  path : PyStr
  image : PILImage
deriving DecidableEq, Repr

/-- An exception escaping `_wait_for_image`, carrying the quadrant files
already written when it was raised. -/
structure Fatal where
  msg : PyStr
  written : List SaveEvent
deriving DecidableEq, Repr

/-- Python `str.split(sep)` for a one-character separator (never returns an
empty list). -/
def splitOnChar (sep : Char) : PyStr → List PyStr
  | [] => [[]]
  | c :: cs =>
    match splitOnChar sep cs with
    | [] => [[]]
    | h :: t => if c = sep then [] :: h :: t else (c :: h) :: t

/-- `download_url.split("/")[-1].split("?")[0]`: the base file name of the
URL, stripped of any query string. -/
def urlFileName (downloadUrl : PyStr) : PyStr :=
  ((splitOnChar '/' downloadUrl).getLastD []).takeWhile (fun c => !(c = '?'))

/-- `f"./images/{file_name}-{i}.png"`. -/
def quadPath (fileName : PyStr) (i : Nat) : PyStr :=
  ('.' :: '/' :: 'i' :: 'm' :: 'a' :: 'g' :: 'e' :: 's' :: '/' :: fileName) ++
    '-' :: (Nat.repr i).data ++ ['.', 'p', 'n', 'g']

/-- The accepted-message branch of `_wait_for_image`: download the single
image, decode it, split it in four and save each quadrant, returning the
save events and the returned paths.  `Image.open` raising on an
unrecognizable body is the only modelled failure; it happens before any file
is written. -/
def processAccept (env : FetchEnv) (message : DiscordMessage) :
    Except Fatal (List SaveEvent × List PyStr) :=
  match env.decode (env.get (message.images.headD [])).body with
  | none => .error ⟨['b', 'a', 'd', ' ', 'i', 'm', 'a', 'g', 'e'], []⟩
  | some image =>
    .ok ((_split_in_four image).enum.map fun p =>
          SaveEvent.mk (quadPath (urlFileName (message.images.headD [])) p.1) p.2,
        (_split_in_four image).enum.map fun p =>
          quadPath (urlFileName (message.images.headD [])) p.1)

/-- One sweep of the `for message in messages` body of `_wait_for_image`:
`.ok none` means no message was accepted in this iteration. -/
def waitStep (env : FetchEnv) (oldMessageIds : List String) (prompt : PyStr) :
    List DiscordMessage → Except Fatal (Option (List SaveEvent × List PyStr))
  | [] => .ok none
  | message :: rest =>
    if _match_mid_journey_prompt_ignoring_urls prompt message.content
        && !(oldMessageIds.contains message.id)
        && !message.images.isEmpty then
      match _classify_midjourney_message message with
      | none => waitStep env oldMessageIds prompt rest
      | some classification =>
        if message.images.length = 1
            && (classification = MidJourneyImageType.MIDJOURNEY_GRID)
            && _match_mid_journey_prompt_ignoring_urls prompt message.content then
          match processAccept env message with
          | .error f => .error f
          | .ok r => .ok (some r)
        else waitStep env oldMessageIds prompt rest
    else waitStep env oldMessageIds prompt rest

/-- `_wait_for_image`: poll the snapshot stream until a step accepts.  The
source loop has no timeout; the embedding adds explicit fuel, with `.ok
none` standing for a loop still running when the fuel ends. -/
def _wait_for_image (env : FetchEnv) (oldMessageIds : List String)
    (prompt : PyStr) (stream : Nat → List DiscordMessage) :
    Nat → Nat → Except Fatal (Option (List SaveEvent × List PyStr))
  | _, 0 => .ok none
  | k, fuel + 1 =>
    match waitStep env oldMessageIds prompt (stream k) with
    | .error f => .error f
    | .ok (some r) => .ok (some r)
    | .ok none => _wait_for_image env oldMessageIds prompt stream (k + 1) fuel

/-!
## The prompt matcher against its specification (claim C1)

The definitions below named `spec…` follow the wording of the spec's
description of the matcher — "replace every substring matching the URL
pattern (an optionally angle-bracket-delimited http(s):// run with no
whitespace) with one fixed literal placeholder token in both strings" — and
are proved equivalent to the source embedding.
-/

/-- Spec-side scheme: the literal `http`, an optional `s`, then `://`. -/
def specScheme (l : List Char) : Option (List Char) :=
  match dropLit ['h', 't', 't', 'p'] l with
  | none => none
  | some r =>
    match r with
    | [] => none
    | c :: r1 =>
      if c = 's' then dropLit [':', '/', '/'] r1
      else dropLit [':', '/', '/'] (c :: r1)

/-- Spec-side URL body: the scheme followed by a non-empty maximal run of
non-whitespace characters. -/
def specBareUrl (l : List Char) : Option (List Char) :=
  match specScheme l with
  | none => none
  | some r =>
    if (r.takeWhile nonspace).isEmpty then none
    else some (r.dropWhile nonspace)

/-- Spec-side URL token: either angle-bracket-delimited — `<`, the URL body,
and an optional closing `>` — or the bare URL body. -/
def specUrlAt (l : List Char) : Option (List Char) :=
  match l with
  | [] => none
  | c :: t =>
    if c = '<' then (specBareUrl t).map stripGt
    else specBareUrl (c :: t)

/-- Spec-side replacement loop, replacing every URL-pattern substring by the
fixed placeholder. -/
def specNormalizeF : Nat → List Char → List Char
  | _, [] => []
  | 0, _ :: _ => []
  | fuel + 1, c :: cs =>
    match specUrlAt (c :: cs) with
    | some r => urlPlaceholder ++ specNormalizeF fuel r
    | none => c :: specNormalizeF fuel cs

/-- Spec-side normalization of one string. -/
def specNormalize (l : List Char) : List Char := specNormalizeF l.length l

/-!
## The progress marker

`containsMarker s n` is the spec's notion of "the content contains a
substring of the form `(N%)` with `N` an integer in 0..100"; it is proved
equivalent to the source's `re.search` on the progress regex.
-/

/-- The spec's progress marker: `s` contains the substring `(N%)`, with `N`
written in ordinary decimal. -/
def containsMarker (s : PyStr) (n : Nat) : Prop :=
  ∃ pre post, s = pre ++ '(' :: ((Nat.repr n).data ++ '%' :: ')' :: post)

/-- The digit shapes generated by the group `100|[1-9]?\d`. -/
def shapeOK : List Char → Bool
  | [a] => pyDigit a
  | [a, b] => nzDigit a && pyDigit b
  | [a, b, c] => a = '1' && b = '0' && c = '0'
  | _ => false

/-- The numeric value of an ASCII digit character. -/
def digitVal (c : Char) : Nat := c.toNat - 48

/-- A concrete environment whose decoder always succeeds on a fixed 2×2
image, used by the loop witnesses. -/
def envDecodeOk : FetchEnv := ⟨fun _ => ⟨true, []⟩, fun _ => some ⟨2, 2, [[1, 2], [3, 4]]⟩⟩

/-- A concrete environment whose responses carry a failing HTTP status but a
body that still decodes as the fixed 2×2 image. -/
def envBadStatus : FetchEnv := ⟨fun _ => ⟨false, []⟩, fun _ => some ⟨2, 2, [[1, 2], [3, 4]]⟩⟩

/-- A concrete environment whose decoder rejects every body. -/
def envDecodeFail : FetchEnv := ⟨fun _ => ⟨false, []⟩, fun _ => none⟩

/-- A concrete grid-classified message matching the prompt `"a cat"`. -/
def gridMessage : DiscordMessage := ⟨"9", "a cat - @a (b".data, ["u".data]⟩

/-!
## Claim C6: invariance of the matcher under URL replacement

`isUrlToken u` says `u` is a full match of the URL pattern (a syntactically
valid URL as the matcher sees one).  The claim is settled by analyzing how
`subUrls` treats `pre ++ u ++ post` as `u` varies over tokens.
-/

/-- `u` matches the URL pattern exactly (nothing left over). -/
def isUrlToken (u : PyStr) : Bool := tryUrlAt u = some []

/-- All characters of `l` are non-whitespace. -/
def spaceFree (l : PyStr) : Bool := l.all nonspace

/-- Outcome of consuming a literal against a finite piece `x` of input:
fully consumed within `x`, exhausted `x` with part of the literal left, or a
mismatch. -/
inductive DLRes where
  | full (r : List Char)
  | part (lit1 : List Char)
  | bad
deriving DecidableEq, Repr

/-- Consume a literal against `x` only, classifying the outcome. -/
def dropLitP : List Char → List Char → DLRes
  | [], x => .full x
  | a :: as, [] => .part (a :: as)
  | a :: as, b :: bs => if a = b then dropLitP as bs else .bad

/-- After the optional angle bracket, the rest of the URL match: scheme then
run then the inert `>?`.  `tryUrlAt l = urlBody (stripAngle l)`. -/
def urlBody (l : List Char) : Option (List Char) :=
  match stripScheme l with
  | none => none
  | some r =>
      if (r.takeWhile nonspace).isEmpty then none
      else some (stripGt (r.dropWhile nonspace))

theorem dropWhile_length_le (p : Char → Bool) (l : List Char) :
    (l.dropWhile p).length ≤ l.length := by
  induction l with
  | nil => simp [List.dropWhile]
  | cons a as ih =>
    by_cases h : p a
    · simp [List.dropWhile, h]
      omega
    · simp [List.dropWhile, h]

theorem dropLit_length {lit l r : List Char} (h : dropLit lit l = some r) :
    r.length + lit.length = l.length := by
  induction lit generalizing l with
  | nil => simp [dropLit] at h; simp [h]
  | cons a as ih =>
    cases l with
    | nil => simp [dropLit] at h
    | cons b bs =>
      simp only [dropLit] at h
      split at h
      · have := ih h; simp [List.length_cons]; omega
      · exact absurd h (by simp)

theorem stripAngle_length (l : List Char) : (stripAngle l).length ≤ l.length := by
  cases l with
  | nil => simp [stripAngle]
  | cons c t => by_cases h : c = '<' <;> simp [stripAngle, h]

theorem stripGt_length (l : List Char) : (stripGt l).length ≤ l.length := by
  cases l with
  | nil => simp [stripGt]
  | cons c t => by_cases h : c = '>' <;> simp [stripGt, h]

theorem stripScheme_length {l r : List Char} (h : stripScheme l = some r) :
    r.length + 7 ≤ l.length := by
  unfold stripScheme at h
  split at h
  · next heq =>
    cases h
    have := dropLit_length heq; simp [lit8] at this; omega
  · have := dropLit_length h; simp [lit7] at this; omega

theorem tryUrlAt_length {l r : List Char} (h : tryUrlAt l = some r) :
    r.length < l.length := by
  unfold tryUrlAt at h
  split at h
  · exact absurd h (by simp)
  · next r0 heq =>
    split at h
    · exact absurd h (by simp)
    · next hne =>
      cases h
      have h1 : (stripGt (r0.dropWhile nonspace)).length ≤
          (r0.dropWhile nonspace).length := stripGt_length _
      have h2 : (r0.dropWhile nonspace).length < r0.length := by
        cases hr : r0 with
        | nil => subst hr; simp [List.takeWhile] at hne
        | cons a as =>
          subst hr
          by_cases ha : nonspace a
          · simp [List.dropWhile, ha]
            have := dropWhile_length_le nonspace as
            omega
          · simp [List.takeWhile, ha] at hne
      have h3 := stripScheme_length heq
      have h4 := stripAngle_length l
      omega

theorem subUrlsF_irrel :
    ∀ (fuel fuel' : Nat) (l : List Char), l.length ≤ fuel →
      l.length ≤ fuel' → subUrlsF fuel l = subUrlsF fuel' l := by
  intro fuel
  induction fuel with
  | zero =>
    intro fuel' l hl _
    have : l = [] := by
      cases l
      · rfl
      · simp at hl
    subst this
    cases fuel' <;> rfl
  | succ fuel ih =>
    intro fuel' l hl hl'
    cases l with
    | nil => cases fuel' <;> rfl
    | cons c cs =>
      cases fuel' with
      | zero => simp at hl'
      | succ f' =>
        simp only [subUrlsF]
        cases htry : tryUrlAt (c :: cs) with
        | some r =>
          have hr : r.length < (c :: cs).length := tryUrlAt_length htry
          simp only [List.length_cons] at hl hl' hr
          show urlPlaceholder ++ subUrlsF fuel r = urlPlaceholder ++ subUrlsF f' r
          rw [ih f' r (by omega) (by omega)]
        | none =>
          simp only [List.length_cons] at hl hl'
          show c :: subUrlsF fuel cs = c :: subUrlsF f' cs
          rw [ih f' cs (by omega) (by omega)]

theorem subUrls_nil : subUrls [] = [] := rfl

theorem subUrls_cons (c : Char) (cs : List Char) :
    subUrls (c :: cs) =
      match tryUrlAt (c :: cs) with
      | some r => urlPlaceholder ++ subUrls r
      | none => c :: subUrls cs := by
  show subUrlsF (cs.length + 1) (c :: cs) = _
  simp only [subUrlsF]
  cases htry : tryUrlAt (c :: cs) with
  | some r =>
    have hr : r.length < (c :: cs).length := tryUrlAt_length htry
    simp only [List.length_cons] at hr
    show urlPlaceholder ++ subUrlsF cs.length r = urlPlaceholder ++ subUrls r
    rw [subUrlsF_irrel cs.length r.length r (by omega) (le_refl _)]
    rfl
  | none =>
    show c :: subUrlsF cs.length cs = c :: subUrls cs
    rfl

theorem dropLit_append (a b l : List Char) :
    dropLit (a ++ b) l = (dropLit a l).bind (dropLit b) := by
  induction a generalizing l with
  | nil => simp [dropLit]
  | cons x xs ih =>
    cases l with
    | nil => simp [dropLit]
    | cons y ys =>
      simp only [List.cons_append, dropLit]
      split
      · exact ih ys
      · simp

theorem specScheme_eq (l : List Char) : specScheme l = stripScheme l := by
  unfold specScheme stripScheme
  have h8 : lit8 = ['h', 't', 't', 'p'] ++ ['s', ':', '/', '/'] := rfl
  have h7 : lit7 = ['h', 't', 't', 'p'] ++ [':', '/', '/'] := rfl
  rw [h8, h7, dropLit_append, dropLit_append]
  cases hp : dropLit ['h', 't', 't', 'p'] l with
  | none => rfl
  | some r =>
    simp only [Option.some_bind]
    cases r with
    | nil => rfl
    | cons c r1 =>
      dsimp only
      by_cases hc : c = 's'
      · subst hc
        rw [if_pos rfl]
        have hs : dropLit ['s', ':', '/', '/'] ('s' :: r1) =
            dropLit [':', '/', '/'] r1 := rfl
        rw [hs]
        cases hd : dropLit [':', '/', '/'] r1 with
        | some r2 => rfl
        | none =>
          have hn : dropLit [':', '/', '/'] ('s' :: r1) = none := rfl
          rw [hn]
      · rw [if_neg hc]
        have hn : dropLit ['s', ':', '/', '/'] (c :: r1) = none := by
          simp only [dropLit]
          rw [if_neg (fun h => hc h.symm)]
        rw [hn]

theorem dropWhile_first_fails {p : Char → Bool} :
    ∀ {l cd : List Char} {c : Char}, l.dropWhile p = c :: cd → p c = false := by
  intro l
  induction l with
  | nil => intro cd c h; simp [List.dropWhile] at h
  | cons a as ih =>
    intro cd c h
    by_cases ha : p a
    · rw [List.dropWhile_cons_of_pos ha] at h
      exact ih h
    · rw [List.dropWhile_cons_of_neg ha] at h
      cases h
      exact Bool.of_not_eq_true ha

theorem stripGt_dropWhile_nonspace (r : List Char) :
    stripGt (r.dropWhile nonspace) = r.dropWhile nonspace := by
  cases hd : r.dropWhile nonspace with
  | nil => rfl
  | cons c t =>
    have hc : nonspace c = false := dropWhile_first_fails hd
    have : ¬ c = '>' := by
      intro h
      subst h
      simp [nonspace, pySpace] at hc
    simp [stripGt, this]

theorem specUrlAt_eq (l : List Char) : specUrlAt l = tryUrlAt l := by
  cases l with
  | nil => rfl
  | cons c t =>
    unfold specUrlAt tryUrlAt
    dsimp only
    by_cases hc : c = '<'
    · subst hc
      rw [if_pos rfl]
      have : stripAngle ('<' :: t) = t := by simp [stripAngle]
      rw [this]
      unfold specBareUrl
      rw [specScheme_eq]
      cases stripScheme t with
      | none => rfl
      | some r =>
        by_cases hrun : (r.takeWhile nonspace).isEmpty
        · simp [hrun]
        · simp [hrun]
    · rw [if_neg hc]
      have : stripAngle (c :: t) = c :: t := by simp [stripAngle, hc]
      rw [this]
      unfold specBareUrl
      rw [specScheme_eq]
      cases stripScheme (c :: t) with
      | none => rfl
      | some r =>
        by_cases hrun : (r.takeWhile nonspace).isEmpty
        · simp [hrun]
        · simp [hrun, stripGt_dropWhile_nonspace]

theorem specNormalizeF_eq (fuel : Nat) :
    ∀ l : List Char, specNormalizeF fuel l = subUrlsF fuel l := by
  induction fuel with
  | zero => intro l; cases l <;> rfl
  | succ fuel ih =>
    intro l
    cases l with
    | nil => rfl
    | cons c cs =>
      simp only [specNormalizeF, subUrlsF, specUrlAt_eq]
      cases tryUrlAt (c :: cs) with
      | some r =>
        show urlPlaceholder ++ specNormalizeF fuel r =
          urlPlaceholder ++ subUrlsF fuel r
        rw [ih]
      | none =>
        show c :: specNormalizeF fuel cs = c :: subUrlsF fuel cs
        rw [ih]

theorem specNormalize_eq (l : List Char) : specNormalize l = subUrls l :=
  specNormalizeF_eq l.length l

/-- Claim C1: `_match_mid_journey_prompt_ignoring_urls P C` returns true iff,
after lowercasing both strings and replacing every substring matching the
URL pattern (an optionally angle-bracket-delimited `http(s)://` run with no
whitespace) with the fixed placeholder token in both, the normalized prompt
is a substring of the normalized message content. -/
theorem claim_C1_matcher_spec (prompt content : PyStr) :
    _match_mid_journey_prompt_ignoring_urls prompt content = true ↔
      isSubstr (specNormalize (pyLower prompt))
        (specNormalize (pyLower content)) = true := by
  rw [_match_mid_journey_prompt_ignoring_urls, specNormalize_eq,
    specNormalize_eq]

theorem repr_shape : ∀ n : Nat, n < 101 → shapeOK (Nat.repr n).data = true := by
  decide

theorem nz_char_cases {a : Char} (h : nzDigit a = true) :
    a = '1' ∨ a = '2' ∨ a = '3' ∨ a = '4' ∨ a = '5' ∨ a = '6' ∨ a = '7' ∨
      a = '8' ∨ a = '9' := by
  simp [nzDigit] at h
  tauto

theorem digit_char_cases {a : Char} (h : pyDigit a = true) :
    a = '0' ∨ a = '1' ∨ a = '2' ∨ a = '3' ∨ a = '4' ∨ a = '5' ∨ a = '6' ∨
      a = '7' ∨ a = '8' ∨ a = '9' := by
  simp [pyDigit, nzDigit] at h
  tauto

theorem twoDigit_repr {a b : Char} (ha : nzDigit a = true)
    (hb : pyDigit b = true) :
    10 * digitVal a + digitVal b ≤ 100 ∧
      (Nat.repr (10 * digitVal a + digitVal b)).data = [a, b] := by
  rcases nz_char_cases ha with rfl | rfl | rfl | rfl | rfl | rfl | rfl | rfl | rfl <;>
    (rcases digit_char_cases hb with
        rfl | rfl | rfl | rfl | rfl | rfl | rfl | rfl | rfl | rfl <;> exact (by decide))

theorem oneDigit_repr {b : Char} (hb : pyDigit b = true) :
    digitVal b ≤ 100 ∧ (Nat.repr (digitVal b)).data = [b] := by
  rcases digit_char_cases hb with
      rfl | rfl | rfl | rfl | rfl | rfl | rfl | rfl | rfl | rfl <;> exact (by decide)

theorem lpre_iff {lit l : List Char} :
    lpre lit l = true ↔ ∃ post, l = lit ++ post := by
  induction lit generalizing l with
  | nil => simp [lpre]
  | cons a as ih =>
    cases l with
    | nil =>
      simp [lpre]
    | cons b bs =>
      simp only [lpre]
      constructor
      · intro h
        split at h
        · next hab =>
          obtain ⟨post, hpost⟩ := ih.mp h
          exact ⟨post, by simp [hab, hpost]⟩
        · exact absurd h (by simp)
      · rintro ⟨post, hpost⟩
        simp only [List.cons_append, List.cons.injEq] at hpost
        obtain ⟨rfl, hbs⟩ := hpost
        rw [if_pos rfl]
        exact ih.mpr ⟨post, hbs⟩

theorem matchProgressAt_marker {ds : List Char} (h : shapeOK ds = true)
    (rest : List Char) :
    matchProgressAt ('(' :: (ds ++ '%' :: ')' :: rest)) = true := by
  match ds with
  | [] => simp [shapeOK] at h
  | [a] =>
    simp only [shapeOK] at h
    simp [matchProgressAt, matchPct, lpre, h]
  | [a, b] =>
    simp only [shapeOK, Bool.and_eq_true] at h
    simp [matchProgressAt, matchPct, lpre, h.1, h.2]
  | [a, b, c] =>
    simp only [shapeOK, Bool.and_eq_true, decide_eq_true_eq] at h
    obtain ⟨⟨rfl, rfl⟩, rfl⟩ := h
    simp [matchProgressAt, matchPct, lpre]
  | _ :: _ :: _ :: _ :: _ => simp [shapeOK] at h

theorem reSearch_of_suffix {m : List Char → Bool} {t l : List Char}
    (hm : m t = true) (hsuf : t <:+ l) : reSearch m l = true := by
  induction l with
  | nil =>
    obtain ⟨pre, hpre⟩ := hsuf
    have : pre = [] ∧ t = [] := by
      constructor <;> [skip; skip] <;>
        · cases hp : pre <;> cases ht : t <;> simp_all
    rw [reSearch, ← this.2]
    exact hm
  | cons c cs ih =>
    obtain ⟨pre, hpre⟩ := hsuf
    cases pre with
    | nil =>
      simp only [List.nil_append] at hpre
      subst hpre
      simp [reSearch, hm]
    | cons p ps =>
      simp only [List.cons_append, List.cons.injEq] at hpre
      obtain ⟨rfl, hps⟩ := hpre
      have := ih ⟨ps, hps⟩
      simp [reSearch, this]

theorem reSearch_inv {m : List Char → Bool} {l : List Char}
    (h : reSearch m l = true) : ∃ t, t <:+ l ∧ m t = true := by
  induction l with
  | nil => exact ⟨[], List.suffix_refl _, h⟩
  | cons c cs ih =>
    simp only [reSearch, Bool.or_eq_true] at h
    rcases h with h | h
    · exact ⟨c :: cs, List.suffix_refl _, h⟩
    · obtain ⟨t, hsuf, hm⟩ := ih h
      exact ⟨t, hsuf.trans (List.suffix_cons _ _), hm⟩

theorem matchPct_inv {r : List Char} (h : matchPct r = true) :
    (∃ post, r = '1' :: '0' :: '0' :: '%' :: ')' :: post) ∨
    (∃ a b post, r = a :: b :: '%' :: ')' :: post ∧
      nzDigit a = true ∧ pyDigit b = true) ∨
    (∃ a post, r = a :: '%' :: ')' :: post ∧ pyDigit a = true) := by
  simp only [matchPct, Bool.or_eq_true] at h
  rcases h with (h | h) | h
  · obtain ⟨post, hpost⟩ := lpre_iff.mp h
    exact .inl ⟨post, by simpa using hpost⟩
  · rcases r with _ | ⟨a, _ | ⟨b, rr⟩⟩
    · simp at h
    · simp at h
    · simp only [Bool.and_eq_true] at h
      obtain ⟨⟨ha, hb⟩, hl⟩ := h
      obtain ⟨post, hpost⟩ := lpre_iff.mp hl
      exact .inr (.inl ⟨a, b, post, by simp [hpost], ha, hb⟩)
  · rcases r with _ | ⟨a, rr⟩
    · simp at h
    · simp only [Bool.and_eq_true] at h
      obtain ⟨ha, hl⟩ := h
      obtain ⟨post, hpost⟩ := lpre_iff.mp hl
      exact .inr (.inr ⟨a, post, by simp [hpost], ha⟩)

/-- The source's progress search succeeds exactly when the content contains
a progress marker `(N%)` with `N` in 0..100. -/
theorem progress_search_iff (s : PyStr) :
    progressSearch s = true ↔ ∃ n, n ≤ 100 ∧ containsMarker s n := by
  constructor
  · intro h
    obtain ⟨t, hsuf, hm⟩ := reSearch_inv h
    match t, hm with
    | c :: r, hm =>
      simp only [matchProgressAt, Bool.and_eq_true, decide_eq_true_eq] at hm
      obtain ⟨rfl, hpct⟩ := hm
      obtain ⟨pre, hpre⟩ := hsuf
      rcases matchPct_inv hpct with ⟨post, rfl⟩ |
          ⟨a, b, post, rfl, ha, hb⟩ | ⟨a, post, rfl, ha⟩
      · exact ⟨100, by omega, pre, post, by rw [← hpre]; rfl⟩
      · obtain ⟨hle, hrepr⟩ := twoDigit_repr ha hb
        exact ⟨10 * digitVal a + digitVal b, hle, pre, post,
          by rw [← hpre, hrepr]; rfl⟩
      · obtain ⟨hle, hrepr⟩ := oneDigit_repr ha
        exact ⟨digitVal a, hle, pre, post, by rw [← hpre, hrepr]; rfl⟩
  · rintro ⟨n, hn, pre, post, rfl⟩
    exact reSearch_of_suffix
      (matchProgressAt_marker (repr_shape n (by omega)) post)
      ⟨pre, rfl⟩

/-!
## Claims about the classifier and the splitter
-/

/-- Claim C2: a message whose content contains a progress marker `(N%)`
with `N` in 0..100 is classified `none`, regardless of its images and of
any other content. -/
theorem claim_C2_progress_none (m : DiscordMessage) (n : Nat)
    (hn : n ≤ 100) (hc : containsMarker m.content n) :
    _classify_midjourney_message m = none := by
  have hp : progressSearch m.content = true :=
    (progress_search_iff _).mpr ⟨n, hn, hc⟩
  simp [_classify_midjourney_message, hp]

/-- Witness for C2: the spec scenario `"**a cat** - @alice (100%)"` with one
image, whose content also matches the grid pattern. -/
theorem claim_C2_progress_none_witness :
    _classify_midjourney_message
      ⟨"1", "**a cat** - @alice (100%)".data, ["u".data]⟩ = none :=
  claim_C2_progress_none _ 100 (by omega)
    ⟨"**a cat** - @alice ".data, [], by decide⟩

/-- Claim C4: a message with at least one image, no progress marker `(N%)`
(`N` in 0..100) in its content, and content matching the
`** - Image #<digits> <@` pattern is classified `UPSCALE`. -/
theorem claim_C4_upscale (m : DiscordMessage)
    (h1 : 0 < m.images.length)
    (h2 : ¬ ∃ n, n ≤ 100 ∧ containsMarker m.content n)
    (h3 : imageNumSearch m.content = true) :
    _classify_midjourney_message m = some .MIDJOURNEY_UPSCALE := by
  have hp : progressSearch m.content = false := by
    cases hps : progressSearch m.content
    · rfl
    · exact absurd ((progress_search_iff _).mp hps) h2
  simp [_classify_midjourney_message, hp, h1, h3]

/-- Witness for C4: the spec scenario `"a cat** - Image #2 <@alice>"` with
one image. -/
theorem claim_C4_upscale_witness :
    _classify_midjourney_message
      ⟨"1", "a cat** - Image #2 <@alice>".data, ["u".data]⟩ =
      some .MIDJOURNEY_UPSCALE :=
  claim_C4_upscale _ (by decide)
    (fun hex => by
      have := (progress_search_iff "a cat** - Image #2 <@alice>".data).mpr hex
      exact absurd this (by decide))
    (by decide)

/-- Claim C3: a message with zero images is never classified: whatever its
content, `_classify_midjourney_message` returns `none`. -/
theorem claim_C3_no_images_unclassified (m : DiscordMessage)
    (h : m.images = []) : _classify_midjourney_message m = none := by
  unfold _classify_midjourney_message
  simp [h]

/-- Witness for C3 at a concrete message whose content would otherwise match
the upscale pattern. -/
theorem claim_C3_no_images_unclassified_witness :
    _classify_midjourney_message
      ⟨"1", ['*', '*', ' ', '-', ' ', 'I', 'm', 'a', 'g', 'e', ' ', '#', '2',
             ' ', '<', '@', 'a'], []⟩ = none :=
  claim_C3_no_images_unclassified _ rfl

/-- Claim C5: `_split_in_four` returns exactly 4 images, in the order
top-left, top-right, bottom-left, bottom-right, with sizes
`(⌊W/2⌋, ⌊H/2⌋)`, `(W−⌊W/2⌋, ⌊H/2⌋)`, `(⌊W/2⌋, H−⌊H/2⌋)`,
`(W−⌊W/2⌋, H−⌊H/2⌋)`, whose pixel counts sum to `W×H`; a 101×101 image
yields quadrants of sizes 50×50, 51×50, 50×51 and 51×51. -/
theorem claim_C5_split_in_four_sizes :
    ∀ im : PILImage,
      (_split_in_four im).length = 4 ∧
      (_split_in_four im).map imSize =
        [(im.width / 2, im.height / 2),
         (im.width - im.width / 2, im.height / 2),
         (im.width / 2, im.height - im.height / 2),
         (im.width - im.width / 2, im.height - im.height / 2)] ∧
      ((_split_in_four im).map fun q => q.width * q.height).sum =
        im.width * im.height ∧
      ∀ px, (_split_in_four ⟨101, 101, px⟩).map imSize =
        [(50, 50), (51, 50), (50, 51), (51, 51)] := by
  intro im
  refine ⟨rfl, ?_, ?_, ?_⟩
  · simp [_split_in_four, crop, imSize]
  · have e : (_split_in_four im).map (fun q => q.width * q.height) =
        [im.width / 2 * (im.height / 2),
         (im.width - im.width / 2) * (im.height / 2),
         im.width / 2 * (im.height - im.height / 2),
         (im.width - im.width / 2) * (im.height - im.height / 2)] := by
      simp [_split_in_four, crop]
    rw [e]
    simp only [List.sum_cons, List.sum_nil]
    have hale : im.width / 2 ≤ im.width := Nat.div_le_self im.width 2
    have hble : im.height / 2 ≤ im.height := Nat.div_le_self im.height 2
    obtain ⟨c, hc⟩ : ∃ c, im.width = im.width / 2 + c :=
      ⟨im.width - im.width / 2, (Nat.add_sub_cancel' hale).symm⟩
    obtain ⟨d, hd⟩ : ∃ d, im.height = im.height / 2 + d :=
      ⟨im.height - im.height / 2, (Nat.add_sub_cancel' hble).symm⟩
    have h1 : im.width - im.width / 2 = c := by omega
    have h2 : im.height - im.height / 2 = d := by omega
    rw [h1, h2]
    nth_rewrite 3 [hc]
    nth_rewrite 3 [hd]
    ring
  · intro px
    simp [_split_in_four, crop, imSize]

/-!
## Claims about the message extractor
-/

theorem extractLoop_cons_exn {m : RenderedMessage} (ms : List RenderedMessage)
    (h : m.idAttr = .exn) : extractLoop (m :: ms) = extractLoop ms := by
  simp [extractLoop, h]

theorem extractLoop_cons_noId {m : RenderedMessage} (ms : List RenderedMessage)
    (h : m.idAttr = .ok none) : extractLoop (m :: ms) = extractLoop ms := by
  simp [extractLoop, h]

theorem extractLoop_cons_badDiv {m : RenderedMessage}
    (ms : List RenderedMessage) {mid : String}
    (h1 : m.idAttr = .ok (some mid)) (h2 : m.contentDiv = .exn) :
    extractLoop (m :: ms) = .error .domException := by
  simp [extractLoop, h1, h2]

theorem extractLoop_cons_good {m : RenderedMessage}
    (ms : List RenderedMessage) {mid : String} {text : PyStr}
    (h1 : m.idAttr = .ok (some mid)) (h2 : m.contentDiv = .ok text) :
    extractLoop (m :: ms) =
      if (_get_image_url m.imageAnchors).isEmpty then extractLoop ms
      else (extractLoop ms).map fun rest =>
        ⟨mid, text, [_get_image_url m.imageAnchors]⟩ :: rest := by
  simp [extractLoop, h1, h2]

theorem extractLoop_ok_mem {ms : List RenderedMessage}
    {result : List DiscordMessage} (h : extractLoop ms = .ok result) :
    ∀ dm ∈ result, ∃ rm ∈ ms, rm.idAttr = .ok (some dm.id) ∧
      dm.images = [_get_image_url rm.imageAnchors] ∧
      ¬(_get_image_url rm.imageAnchors).isEmpty := by
  induction ms generalizing result with
  | nil =>
    simp only [extractLoop] at h
    cases h
    simp
  | cons m ms ih =>
    match hid : m.idAttr with
    | .exn =>
      rw [extractLoop_cons_exn ms hid] at h
      intro dm hdm
      obtain ⟨rm, hrm, hrest⟩ := ih h dm hdm
      exact ⟨rm, List.mem_cons_of_mem _ hrm, hrest⟩
    | .ok none =>
      rw [extractLoop_cons_noId ms hid] at h
      intro dm hdm
      obtain ⟨rm, hrm, hrest⟩ := ih h dm hdm
      exact ⟨rm, List.mem_cons_of_mem _ hrm, hrest⟩
    | .ok (some mid) =>
      match hcd : m.contentDiv with
      | .exn =>
        rw [extractLoop_cons_badDiv ms hid hcd] at h
        exact absurd h (by simp)
      | .ok text =>
        rw [extractLoop_cons_good ms hid hcd] at h
        by_cases hurl : (_get_image_url m.imageAnchors).isEmpty
        · rw [if_pos hurl] at h
          intro dm hdm
          obtain ⟨rm, hrm, hrest⟩ := ih h dm hdm
          exact ⟨rm, List.mem_cons_of_mem _ hrm, hrest⟩
        · rw [if_neg hurl] at h
          cases hr : extractLoop ms with
          | error e => rw [hr] at h; exact absurd h (by simp [Except.map])
          | ok rest =>
            rw [hr] at h
            simp only [Except.map, Except.ok.injEq] at h
            subst h
            intro dm hdm
            rcases List.mem_cons.mp hdm with hdm | hdm
            · subst hdm
              exact ⟨m, List.mem_cons_self _ _, hid, rfl, hurl⟩
            · obtain ⟨rm, hrm, hrest⟩ := ih hr dm hdm
              exact ⟨rm, List.mem_cons_of_mem _ hrm, hrest⟩

/-- Claim C10: every message returned by `extract_messages` carries exactly
one image reference, and it is a non-empty string; it originates from a
rendered message whose id read succeeded with a present id.  Rendered
messages with no extractable image URL or no id are omitted, so the polling
loop's image-count conditions hold for every extracted message. -/
theorem claim_C10_extracted_single_image
    (driver : Option (List RenderedMessage)) (result : List DiscordMessage)
    (h : extract_messages driver = .ok result) :
    ∀ dm ∈ result, (∃ u, dm.images = [u] ∧ u ≠ []) ∧
      ∃ rms, driver = some rms ∧ ∃ rm ∈ rms,
        rm.idAttr = .ok (some dm.id) ∧
        dm.images = [_get_image_url rm.imageAnchors] := by
  match driver with
  | none => exact absurd h (by simp [extract_messages])
  | some rms =>
    simp only [extract_messages] at h
    intro dm hdm
    obtain ⟨rm, hrm, hid, himg, hne⟩ := extractLoop_ok_mem h dm hdm
    refine ⟨⟨_get_image_url rm.imageAnchors, himg, ?_⟩, rms, rfl, rm, hrm, hid, himg⟩
    intro hnil
    exact hne (by simp [hnil])

/-- Witness for C10 on a concrete driver snapshot with one extractable
message. -/
theorem claim_C10_extracted_single_image_witness :
    (∃ u, (DiscordMessage.mk "m2" ['h', 'i'] [['u']]).images = [u] ∧ u ≠ []) ∧
    ∃ rms, (some [RenderedMessage.mk (.ok (some "m2")) (.ok ['h', 'i'])
        [some ['u']]] : Option (List RenderedMessage)) = some rms ∧
      ∃ rm ∈ rms,
        rm.idAttr = .ok (some (DiscordMessage.mk "m2" ['h', 'i'] [['u']]).id) ∧
        (DiscordMessage.mk "m2" ['h', 'i'] [['u']]).images =
          [_get_image_url rm.imageAnchors] :=
  claim_C10_extracted_single_image
    (some [⟨.ok (some "m2"), .ok ['h', 'i'], [some ['u']]⟩]) _ rfl
    ⟨"m2", ['h', 'i'], [['u']]⟩ (List.mem_cons_self _ _)

/-- Claim C9 counterexample: a message whose content-div read raises a
transient DOM exception is not skipped — the exception escapes
`extract_messages` and even a later healthy message is lost, contradicting
the claim that only an unreachable extractor is fatal. -/
theorem claim_C9_counterexample :
    extract_messages
        (some [⟨.ok (some "m1"), .exn, [some ['u']]⟩,
               ⟨.ok (some "m2"), .ok ['h', 'i'], [some ['u']]⟩]) =
      .error .domException ∧
    extract_messages
        (some [⟨.ok (some "m1"), .exn, [some ['u']]⟩,
               ⟨.ok (some "m2"), .ok ['h', 'i'], [some ['u']]⟩]) ≠
      .ok [⟨"m2", ['h', 'i'], [['u']]⟩] := by
  exact ⟨rfl, fun hc => Except.noConfusion hc⟩

/-- Claim C9 amended: only the id read of a message is guarded — a transient
failure there (or an absent id) skips just that message and extraction
continues; a transient failure reading a message's content div propagates
and is fatal to the whole extraction; an uninitialized driver is fatal
(`ValueError`). -/
theorem claim_C9_amended :
    extract_messages none = .error .notInitialized ∧
    (∀ (m : RenderedMessage) ms, m.idAttr = .exn →
      extractLoop (m :: ms) = extractLoop ms) ∧
    (∀ (m : RenderedMessage) ms, m.idAttr = .ok none →
      extractLoop (m :: ms) = extractLoop ms) ∧
    (∀ (m : RenderedMessage) ms mid, m.idAttr = .ok (some mid) →
      m.contentDiv = .exn → extractLoop (m :: ms) = .error .domException) := by
  refine ⟨rfl, ?_, ?_, ?_⟩
  · intro m ms h; simp [extractLoop, h]
  · intro m ms h; simp [extractLoop, h]
  · intro m ms mid h1 h2; simp [extractLoop, h1, h2]

/-- Witness for the amended C9: the fatal content-div case at a concrete
message. -/
theorem claim_C9_amended_witness :
    extractLoop [⟨.ok (some "m1"), .exn, [some ['u']]⟩] =
      .error .domException :=
  claim_C9_amended.2.2.2 ⟨.ok (some "m1"), .exn, [some ['u']]⟩ [] "m1" rfl rfl

/-!
## Claims about the polling loop
-/

theorem processAccept_ok {env : FetchEnv} {m : DiscordMessage}
    {ev : List SaveEvent} {paths : List PyStr}
    (h : processAccept env m = .ok (ev, paths)) :
    ∃ img, env.decode (env.get (m.images.headD [])).body = some img ∧
      paths = [quadPath (urlFileName (m.images.headD [])) 0,
               quadPath (urlFileName (m.images.headD [])) 1,
               quadPath (urlFileName (m.images.headD [])) 2,
               quadPath (urlFileName (m.images.headD [])) 3] ∧
      ev = List.zipWith SaveEvent.mk paths (_split_in_four img) ∧
      paths.length = 4 := by
  unfold processAccept at h
  split at h
  · exact absurd h (by simp)
  · next img himg =>
    simp only [Except.ok.injEq, Prod.mk.injEq] at h
    obtain ⟨hev, hpaths⟩ := h
    subst hpaths
    refine ⟨img, himg, rfl, ?_, rfl⟩
    rw [← hev]
    rfl

theorem processAccept_error {env : FetchEnv} {m : DiscordMessage} {f : Fatal}
    (h : processAccept env m = .error f) : f.written = [] := by
  unfold processAccept at h
  split at h
  · cases h
    rfl
  · exact absurd h (by simp)

theorem waitStep_ok_some {env : FetchEnv} {old : List String} {prompt : PyStr} :
    ∀ {msgs : List DiscordMessage} {r},
    waitStep env old prompt msgs = .ok (some r) →
    ∃ m ∈ msgs,
      _match_mid_journey_prompt_ignoring_urls prompt m.content = true ∧
      old.contains m.id = false ∧
      _classify_midjourney_message m = some .MIDJOURNEY_GRID ∧
      m.images.length = 1 ∧
      processAccept env m = .ok r := by
  intro msgs
  induction msgs with
  | nil => intro r h; exact absurd h (by simp [waitStep])
  | cons m ms ih =>
    intro r h
    simp only [waitStep] at h
    split at h
    · next houter =>
      split at h
      · -- classification is none: continue with the rest
        obtain ⟨m', hm', hrest⟩ := ih h
        exact ⟨m', List.mem_cons_of_mem _ hm', hrest⟩
      · next cls hcls =>
        split at h
        · next hinner =>
          split at h
          · exact absurd h (by simp)
          · next r' hpa =>
            simp only [Except.ok.injEq, Option.some.injEq] at h
            subst h
            simp only [Bool.and_eq_true, Bool.not_eq_true', decide_eq_true_eq]
              at houter hinner
            obtain ⟨⟨hmatch, hold⟩, _⟩ := houter
            obtain ⟨⟨hlen, hgrid⟩, _⟩ := hinner
            subst hgrid
            exact ⟨m, List.mem_cons_self _ _, hmatch, hold, hcls, hlen, hpa⟩
        · obtain ⟨m', hm', hrest⟩ := ih h
          exact ⟨m', List.mem_cons_of_mem _ hm', hrest⟩
    · obtain ⟨m', hm', hrest⟩ := ih h
      exact ⟨m', List.mem_cons_of_mem _ hm', hrest⟩

/-- Claim C7: the polling loop returns a value only upon accepting a message
that prompt-matches, is new, is classified `GRID` and has exactly one image;
the accepted image is downloaded and decoded, split into four quadrants, one
file per quadrant is written under `./images/` named by the URL's base file
name (query string stripped) and the quadrant index, and exactly those four
paths are returned. -/
theorem claim_C7_wait_accepts_grid (env : FetchEnv) (old : List String)
    (prompt : PyStr) (stream : Nat → List DiscordMessage) (k fuel : Nat)
    (events : List SaveEvent) (paths : List PyStr)
    (h : _wait_for_image env old prompt stream k fuel = .ok (some (events, paths))) :
    ∃ i, ∃ m ∈ stream i,
      _match_mid_journey_prompt_ignoring_urls prompt m.content = true ∧
      old.contains m.id = false ∧
      _classify_midjourney_message m = some .MIDJOURNEY_GRID ∧
      m.images.length = 1 ∧
      ∃ img, env.decode (env.get (m.images.headD [])).body = some img ∧
        paths = [quadPath (urlFileName (m.images.headD [])) 0,
                 quadPath (urlFileName (m.images.headD [])) 1,
                 quadPath (urlFileName (m.images.headD [])) 2,
                 quadPath (urlFileName (m.images.headD [])) 3] ∧
        events = List.zipWith SaveEvent.mk paths (_split_in_four img) ∧
        paths.length = 4 := by
  induction fuel generalizing k with
  | zero => exact absurd h (by simp [_wait_for_image])
  | succ fuel ih =>
    simp only [_wait_for_image] at h
    split at h
    · exact absurd h (by simp)
    · next r hstep =>
      simp only [Except.ok.injEq, Option.some.injEq] at h
      subst h
      obtain ⟨m, hm, hmatch, hold, hcls, hlen, hpa⟩ := waitStep_ok_some hstep
      obtain ⟨img, himg, hpaths, hev, hplen⟩ := processAccept_ok hpa
      exact ⟨k, m, hm, hmatch, hold, hcls, hlen, img, himg, hpaths, hev, hplen⟩
    · exact ih _ h

/-- Witness for C7: running the loop in a concrete environment reaches the
acceptance and returns the four quadrant paths. -/
theorem claim_C7_wait_accepts_grid_witness :
    ∃ i, ∃ m ∈ (fun _ : Nat => [gridMessage]) i,
      _match_mid_journey_prompt_ignoring_urls "a cat".data m.content = true ∧
      ([] : List String).contains m.id = false ∧
      _classify_midjourney_message m = some .MIDJOURNEY_GRID ∧
      m.images.length = 1 ∧
      ∃ img, envDecodeOk.decode (envDecodeOk.get (m.images.headD [])).body = some img ∧
        ["./images/u-0.png".data, "./images/u-1.png".data,
         "./images/u-2.png".data, "./images/u-3.png".data] =
          [quadPath (urlFileName (m.images.headD [])) 0,
           quadPath (urlFileName (m.images.headD [])) 1,
           quadPath (urlFileName (m.images.headD [])) 2,
           quadPath (urlFileName (m.images.headD [])) 3] ∧
        List.zipWith SaveEvent.mk
            ["./images/u-0.png".data, "./images/u-1.png".data,
             "./images/u-2.png".data, "./images/u-3.png".data]
            [⟨1, 1, [[1]]⟩, ⟨1, 1, [[2]]⟩, ⟨1, 1, [[3]]⟩, ⟨1, 1, [[4]]⟩] =
          List.zipWith SaveEvent.mk
            ["./images/u-0.png".data, "./images/u-1.png".data,
             "./images/u-2.png".data, "./images/u-3.png".data]
            (_split_in_four img) ∧
        (["./images/u-0.png".data, "./images/u-1.png".data,
          "./images/u-2.png".data, "./images/u-3.png".data] : List PyStr).length = 4 :=
  claim_C7_wait_accepts_grid envDecodeOk [] "a cat".data
    (fun _ => [gridMessage]) 0 1
    (List.zipWith SaveEvent.mk
      ["./images/u-0.png".data, "./images/u-1.png".data,
       "./images/u-2.png".data, "./images/u-3.png".data]
      [⟨1, 1, [[1]]⟩, ⟨1, 1, [[2]]⟩, ⟨1, 1, [[3]]⟩, ⟨1, 1, [[4]]⟩])
    ["./images/u-0.png".data, "./images/u-1.png".data,
     "./images/u-2.png".data, "./images/u-3.png".data]
    rfl

/-- Claim C8 counterexample: the source never inspects the HTTP status of
the download.  In an environment whose response to the accepted image URL
has a failing status but a body that still decodes, the invocation does not
fail — it returns the four quadrant paths, contradicting the claim that a
non-success response is fatal with no artifacts returned. -/
theorem claim_C8_counterexample :
    (envBadStatus.get "u".data).ok = false ∧
    _wait_for_image envBadStatus [] "a cat".data (fun _ => [gridMessage]) 0 1 =
      .ok (some
        (List.zipWith SaveEvent.mk
          ["./images/u-0.png".data, "./images/u-1.png".data,
           "./images/u-2.png".data, "./images/u-3.png".data]
          [⟨1, 1, [[1]]⟩, ⟨1, 1, [[2]]⟩, ⟨1, 1, [[3]]⟩, ⟨1, 1, [[4]]⟩],
         ["./images/u-0.png".data, "./images/u-1.png".data,
          "./images/u-2.png".data, "./images/u-3.png".data])) := by
  exact ⟨rfl, rfl⟩

theorem waitStep_error_written {env : FetchEnv} {old : List String}
    {prompt : PyStr} :
    ∀ {msgs : List DiscordMessage} {f},
    waitStep env old prompt msgs = .error f → f.written = [] := by
  intro msgs
  induction msgs with
  | nil => intro f h; exact absurd h (by simp [waitStep])
  | cons m ms ih =>
    intro f h
    simp only [waitStep] at h
    split at h
    · split at h
      · exact ih h
      · split at h
        · split at h
          · next f' hpa =>
            cases h
            exact processAccept_error hpa
          · exact absurd h (by simp)
        · exact ih h
    · exact ih h

theorem waitStep_cons_out {env : FetchEnv} {old : List String}
    {prompt : PyStr} {m : DiscordMessage} (ms : List DiscordMessage)
    (h : (_match_mid_journey_prompt_ignoring_urls prompt m.content
        && !(old.contains m.id) && !m.images.isEmpty) = false) :
    waitStep env old prompt (m :: ms) = waitStep env old prompt ms := by
  simp only [waitStep, h]
  rfl

theorem waitStep_cons_unclassified {env : FetchEnv} {old : List String}
    {prompt : PyStr} {m : DiscordMessage} (ms : List DiscordMessage)
    (h : _classify_midjourney_message m = none) :
    waitStep env old prompt (m :: ms) = waitStep env old prompt ms := by
  simp only [waitStep, h]
  split <;> rfl

theorem waitStep_cons_inner {env : FetchEnv} {old : List String}
    {prompt : PyStr} {m : DiscordMessage} (ms : List DiscordMessage)
    {cls : MidJourneyImageType}
    (hcls : _classify_midjourney_message m = some cls)
    (h : (m.images.length = 1 && (cls = MidJourneyImageType.MIDJOURNEY_GRID)
        && _match_mid_journey_prompt_ignoring_urls prompt m.content) = false) :
    waitStep env old prompt (m :: ms) = waitStep env old prompt ms := by
  simp only [waitStep, hcls, h]
  split <;> rfl

theorem waitStep_cons_accept {env : FetchEnv} {old : List String}
    {prompt : PyStr} {m : DiscordMessage} (ms : List DiscordMessage)
    {cls : MidJourneyImageType}
    (hout : (_match_mid_journey_prompt_ignoring_urls prompt m.content
        && !(old.contains m.id) && !m.images.isEmpty) = true)
    (hcls : _classify_midjourney_message m = some cls)
    (hin : (m.images.length = 1 && (cls = MidJourneyImageType.MIDJOURNEY_GRID)
        && _match_mid_journey_prompt_ignoring_urls prompt m.content) = true) :
    waitStep env old prompt (m :: ms) =
      match processAccept env m with
      | .error f => .error f
      | .ok r => .ok (some r) := by
  simp only [waitStep, hout, hcls, hin]
  rfl

theorem waitStep_skip {env : FetchEnv} {old : List String} {prompt : PyStr}
    {m : DiscordMessage} (h : waitStep env old prompt [m] = .ok none) :
    ∀ ms, waitStep env old prompt (m :: ms) = waitStep env old prompt ms := by
  intro ms
  by_cases hout : (_match_mid_journey_prompt_ignoring_urls prompt m.content
      && !(old.contains m.id) && !m.images.isEmpty) = true
  · cases hcls : _classify_midjourney_message m with
    | none => exact waitStep_cons_unclassified ms hcls
    | some cls =>
      by_cases hin : (m.images.length = 1
          && (cls = MidJourneyImageType.MIDJOURNEY_GRID)
          && _match_mid_journey_prompt_ignoring_urls prompt m.content) = true
      · exfalso
        rw [waitStep_cons_accept [] hout hcls hin] at h
        revert h
        cases processAccept env m <;> simp
      · exact waitStep_cons_inner ms hcls (Bool.not_eq_true _ ▸ hin)
  · exact waitStep_cons_out ms (Bool.not_eq_true _ ▸ hout)

/-- Claim C8 amended: the code never checks the HTTP status; the download
fails the invocation exactly when the fetched body cannot be decoded as an
image (as a non-success response's body normally cannot).  Such a failure is
fatal — once a step reaches an accepted message whose body does not decode,
the step raises — and no partial artifacts are produced: every error
escaping the loop carries zero written files. -/
theorem claim_C8_amended :
    (∀ (env : FetchEnv) old prompt stream k fuel f,
      _wait_for_image env old prompt stream k fuel = .error f →
        f.written = []) ∧
    (∀ (env : FetchEnv) old prompt (pre : List DiscordMessage) m
        (post : List DiscordMessage),
      (∀ m' ∈ pre, waitStep env old prompt [m'] = .ok none) →
      waitStep env old prompt [m] ≠ .ok none →
      env.decode (env.get (m.images.headD [])).body = none →
      ∃ f, waitStep env old prompt (pre ++ m :: post) = .error f ∧
        f.written = []) ∧
    (∀ (env : FetchEnv) old prompt stream k fuel f,
      waitStep env old prompt (stream k) = .error f →
        _wait_for_image env old prompt stream k (fuel + 1) = .error f) := by
  refine ⟨?_, ?_, ?_⟩
  · intro env old prompt stream k fuel f h
    induction fuel generalizing k with
    | zero => exact absurd h (by simp [_wait_for_image])
    | succ fuel ih =>
      simp only [_wait_for_image] at h
      split at h
      · next f' hstep =>
        cases h
        exact waitStep_error_written hstep
      · exact absurd h (by simp)
      · exact ih _ h
  · intro env old prompt pre m post hpre hm hdec
    induction pre with
    | cons p ps ih =>
      rw [List.cons_append,
        waitStep_skip (hpre p (List.mem_cons_self _ _)) (ps ++ m :: post)]
      exact ih fun m' hm' => hpre m' (List.mem_cons_of_mem _ hm')
    | nil =>
      simp only [List.nil_append]
      have hfail : processAccept env m =
          .error ⟨['b', 'a', 'd', ' ', 'i', 'm', 'a', 'g', 'e'], []⟩ := by
        unfold processAccept
        rw [hdec]
      refine ⟨⟨['b', 'a', 'd', ' ', 'i', 'm', 'a', 'g', 'e'], []⟩, ?_, rfl⟩
      by_cases hout : (_match_mid_journey_prompt_ignoring_urls prompt m.content
          && !(old.contains m.id) && !m.images.isEmpty) = true
      · cases hcls : _classify_midjourney_message m with
        | none =>
          exact absurd ((waitStep_cons_unclassified [] hcls).trans rfl) hm
        | some cls =>
          by_cases hin : (m.images.length = 1
              && (cls = MidJourneyImageType.MIDJOURNEY_GRID)
              && _match_mid_journey_prompt_ignoring_urls prompt m.content) = true
          · rw [waitStep_cons_accept post hout hcls hin, hfail]
          · exact absurd
              ((waitStep_cons_inner [] hcls (Bool.not_eq_true _ ▸ hin)).trans rfl)
              hm
      · exact absurd ((waitStep_cons_out [] (Bool.not_eq_true _ ▸ hout)).trans rfl)
          hm
  · intro env old prompt stream k fuel f h
    simp only [_wait_for_image, h]

/-- Witness for the amended C8: in an environment whose decoder rejects the
body, the accepting step raises and the artifact list in the error is
empty. -/
theorem claim_C8_amended_witness :
    ∃ f, waitStep envDecodeFail [] "a cat".data ([] ++ gridMessage :: []) =
      .error f ∧ f.written = [] :=
  claim_C8_amended.2.1 envDecodeFail [] "a cat".data [] gridMessage []
    (fun m' hm' => absurd hm' (List.not_mem_nil m'))
    (fun hc => Except.noConfusion hc) rfl

theorem dropLit_iff {lit l r : List Char} :
    dropLit lit l = some r ↔ l = lit ++ r := by
  induction lit generalizing l with
  | nil => simp [dropLit]
  | cons a as ih =>
    cases l with
    | nil => simp [dropLit]
    | cons b bs =>
      simp only [dropLit, List.cons_append, List.cons.injEq]
      split
      · next hab =>
        subst hab
        rw [ih]
        simp
      · next hab =>
        constructor
        · intro h; exact absurd h (by simp)
        · rintro ⟨h1, _⟩; exact absurd h1.symm hab

theorem stripScheme_inv {l r : List Char} (h : stripScheme l = some r) :
    l = lit8 ++ r ∨ l = lit7 ++ r := by
  unfold stripScheme at h
  split at h
  · next heq =>
    cases h
    exact .inl (dropLit_iff.mp heq)
  · exact .inr (dropLit_iff.mp h)

theorem dropWhile_eq_nil_all {p : Char → Bool} {l : List Char}
    (h : l.dropWhile p = []) : l.all p = true := by
  induction l with
  | nil => rfl
  | cons a as ih =>
    by_cases ha : p a
    · rw [List.dropWhile_cons_of_pos ha] at h
      simp [List.all_cons, ha, ih h]
    · rw [List.dropWhile_cons_of_neg ha] at h
      cases h

theorem takeWhile_eq_self_of_all {p : Char → Bool} {l : List Char}
    (h : l.all p = true) : l.takeWhile p = l := by
  induction l with
  | nil => rfl
  | cons a as ih =>
    simp only [List.all_cons, Bool.and_eq_true] at h
    rw [List.takeWhile_cons_of_pos h.1, ih h.2]

/-- Structure of a URL token: an optional `<`, one of the two scheme
literals, and a non-empty whitespace-free run, with nothing after it. -/
theorem token_inv {u : PyStr} (h : isUrlToken u = true) :
    ∃ ang sch r0, (ang = [] ∨ ang = ['<']) ∧ (sch = lit8 ∨ sch = lit7) ∧
      u = ang ++ sch ++ r0 ∧ r0 ≠ [] ∧ r0.all nonspace = true := by
  simp only [isUrlToken, decide_eq_true_eq] at h
  unfold tryUrlAt at h
  split at h
  · exact absurd h (by simp)
  · next r0 hsch =>
    split at h
    · exact absurd h (by simp)
    · next hrun =>
      simp only [Option.some.injEq] at h
      -- the leftover after the run is empty
      have hdrop : r0.dropWhile nonspace = [] := by
        rw [stripGt_dropWhile_nonspace] at h
        exact h
      have hall : r0.all nonspace = true := dropWhile_eq_nil_all hdrop
      have hne : r0 ≠ [] := by
        intro hnil
        subst hnil
        simp [List.takeWhile] at hrun
      rcases hsa : stripAngle u with _ | ⟨c0, t0⟩
      · rw [hsa] at hsch
        rcases stripScheme_inv hsch with h8 | h8 <;> simp [lit8, lit7] at h8
      · rw [hsa] at hsch
        have hstruct := stripScheme_inv hsch
        cases u with
        | nil => simp [stripAngle] at hsa
        | cons cu tu =>
          by_cases hcu : cu = '<'
          · subst hcu
            simp only [stripAngle, if_pos] at hsa
            rcases hstruct with h8 | h8
            · exact ⟨['<'], lit8, r0, .inr rfl, .inl rfl, by
                simp [hsa, h8], hne, hall⟩
            · exact ⟨['<'], lit7, r0, .inr rfl, .inr rfl, by
                simp [hsa, h8], hne, hall⟩
          · have hid : stripAngle (cu :: tu) = cu :: tu := by
              simp [stripAngle, hcu]
            rw [hid] at hsa
            rcases hstruct with h8 | h8
            · exact ⟨[], lit8, r0, .inl rfl, .inl rfl, by
                simp [hsa, h8], hne, hall⟩
            · exact ⟨[], lit7, r0, .inl rfl, .inr rfl, by
                simp [hsa, h8], hne, hall⟩

theorem token_ne_nil {u : PyStr} (h : isUrlToken u = true) : u ≠ [] := by
  obtain ⟨ang, sch, r0, _, hsch, hu, hr0, _⟩ := token_inv h
  rcases hsch with rfl | rfl <;>
    (subst hu; rcases ang with _ | ⟨a, t⟩ <;> simp [lit8, lit7])

theorem token_spaceFree {u : PyStr} (h : isUrlToken u = true) :
    spaceFree u = true := by
  obtain ⟨ang, sch, r0, hang, hsch, hu, _, hall⟩ := token_inv h
  subst hu
  unfold spaceFree
  simp only [List.all_append, Bool.and_eq_true]
  refine ⟨⟨?_, ?_⟩, hall⟩
  · rcases hang with rfl | rfl
    · rfl
    · decide
  · rcases hsch with rfl | rfl <;> decide

theorem token_head {u : PyStr} (h : isUrlToken u = true) :
    u.head? = some '<' ∨ u.head? = some 'h' := by
  obtain ⟨ang, sch, r0, hang, hsch, hu, _, _⟩ := token_inv h
  subst hu
  rcases hang with rfl | rfl
  · rcases hsch with rfl | rfl <;> exact .inr rfl
  · exact .inl rfl

theorem takeWhile_append_of_all {p : Char → Bool} {a : List Char}
    (h : a.all p = true) (b : List Char) :
    (a ++ b).takeWhile p = a ++ b.takeWhile p := by
  induction a with
  | nil => rfl
  | cons x xs ih =>
    simp only [List.all_cons, Bool.and_eq_true] at h
    simp only [List.cons_append, List.takeWhile_cons_of_pos h.1, ih h.2]

theorem dropWhile_append_of_all {p : Char → Bool} {a : List Char}
    (h : a.all p = true) (b : List Char) :
    (a ++ b).dropWhile p = b.dropWhile p := by
  induction a with
  | nil => rfl
  | cons x xs ih =>
    simp only [List.all_cons, Bool.and_eq_true] at h
    simp only [List.cons_append, List.dropWhile_cons_of_pos h.1, ih h.2]

theorem dropLit_lit8_lit7 (x : List Char) : dropLit lit8 (lit7 ++ x) = none := rfl

/-- Attaching anything to a URL token extends the match to the end of the
token's whitespace-free run: the remainder is the suffix of the attachment
from its first whitespace character. -/
theorem token_append {u : PyStr} (h : isUrlToken u = true) (t : List Char) :
    tryUrlAt (u ++ t) = some (t.dropWhile nonspace) := by
  obtain ⟨ang, sch, r0, hang, hsch, hu, hne, hall⟩ := token_inv h
  subst hu
  have hbody : stripAngle ((sch ++ r0) ++ t) = (sch ++ r0) ++ t := by
    rcases hsch with rfl | rfl <;> rfl
  have hangle : stripAngle ((ang ++ sch ++ r0) ++ t) = (sch ++ r0) ++ t := by
    rcases hang with rfl | rfl
    · simpa using hbody
    · have : (['<'] ++ sch ++ r0) ++ t = '<' :: ((sch ++ r0) ++ t) := by simp
      rw [this]
      rfl
  have hscheme : stripScheme ((sch ++ r0) ++ t) = some (r0 ++ t) := by
    rcases hsch with rfl | rfl
    · unfold stripScheme
      rw [show (lit8 ++ r0) ++ t = lit8 ++ (r0 ++ t) by simp]
      rw [dropLit_iff.mpr rfl]
    · unfold stripScheme
      rw [show (lit7 ++ r0) ++ t = lit7 ++ (r0 ++ t) by simp]
      rw [dropLit_lit8_lit7 (r0 ++ t), dropLit_iff.mpr rfl]
  unfold tryUrlAt
  rw [hangle, hscheme]
  dsimp only
  rw [takeWhile_append_of_all hall, dropWhile_append_of_all hall]
  have hrunne : (r0 ++ t.takeWhile nonspace).isEmpty = false := by
    cases r0 with
    | nil => exact absurd rfl hne
    | cons a as => rfl
  rw [hrunne]
  simp [stripGt_dropWhile_nonspace]

theorem pySpace_ne {w c : Char} (hw : pySpace w = true) (hc : pySpace c = false) :
    ¬ c = w := by
  intro h
  subst h
  rw [hw] at hc
  cases hc

theorem dropLit_ws_append {lit : List Char} (hlit : lit.all nonspace = true)
    {w : Char} (hw : pySpace w = true) :
    ∀ x b, dropLit lit (x ++ w :: b) = (dropLit lit x).map (· ++ w :: b) := by
  induction lit with
  | nil => intro x b; simp [dropLit]
  | cons a as ih =>
    intro x b
    simp only [List.all_cons, Bool.and_eq_true] at hlit
    cases x with
    | nil =>
      simp only [List.nil_append, dropLit]
      have ha : pySpace a = false := by
        have := hlit.1
        unfold nonspace at this
        cases hpa : pySpace a
        · rfl
        · rw [hpa] at this; cases this
      rw [if_neg (pySpace_ne hw ha)]
      rfl
    | cons y ys =>
      simp only [List.cons_append, dropLit]
      split
      · exact ih hlit.2 ys b
      · rfl

theorem stripScheme_ws_append {w : Char} (hw : pySpace w = true) (x b : List Char) :
    stripScheme (x ++ w :: b) = (stripScheme x).map (· ++ w :: b) := by
  unfold stripScheme
  rw [dropLit_ws_append (by decide) hw x b, dropLit_ws_append (by decide) hw x b]
  cases dropLit lit8 x with
  | some r => rfl
  | none =>
    cases dropLit lit7 x with
    | some r => rfl
    | none => rfl

theorem takeWhile_ws_append {w : Char} (hw : pySpace w = true) :
    ∀ (r b : List Char), (r ++ w :: b).takeWhile nonspace = r.takeWhile nonspace := by
  intro r b
  induction r with
  | nil =>
    have : nonspace w = false := by simp [nonspace, hw]
    simp [List.takeWhile, this]
  | cons a as ih =>
    by_cases ha : nonspace a
    · simp only [List.cons_append, List.takeWhile_cons_of_pos ha, ih]
    · rw [List.cons_append, List.takeWhile_cons_of_neg ha,
        List.takeWhile_cons_of_neg ha]

theorem dropWhile_ws_append {w : Char} (hw : pySpace w = true) :
    ∀ (r b : List Char),
      (r ++ w :: b).dropWhile nonspace = r.dropWhile nonspace ++ w :: b := by
  intro r b
  induction r with
  | nil =>
    have : nonspace w = false := by simp [nonspace, hw]
    simp [List.dropWhile, this]
  | cons a as ih =>
    by_cases ha : nonspace a
    · simp only [List.cons_append, List.dropWhile_cons_of_pos ha, ih]
    · rw [List.cons_append, List.dropWhile_cons_of_neg ha,
        List.dropWhile_cons_of_neg ha]
      rfl

theorem stripGt_dropWhile_append {w : Char} (hw : pySpace w = true)
    (r b : List Char) :
    stripGt (r.dropWhile nonspace ++ w :: b) =
      stripGt (r.dropWhile nonspace) ++ w :: b := by
  cases hd : r.dropWhile nonspace with
  | nil =>
    have hwne : ¬ w = '>' := by
      intro h; subst h; cases hw
    simp [stripGt, hwne]
  | cons c t =>
    have hc : nonspace c = false := dropWhile_first_fails hd
    have : ¬ c = '>' := by
      intro h; subst h; simp [nonspace, pySpace] at hc
    simp [stripGt, this]

theorem tryUrlAt_ws_append {w : Char} (hw : pySpace w = true) :
    ∀ s b, tryUrlAt (s ++ w :: b) = (tryUrlAt s).map (· ++ w :: b) := by
  intro s b
  cases s with
  | nil =>
    simp only [List.nil_append]
    have h1 : stripAngle (w :: b) = w :: b := by
      have : ¬ w = '<' := by intro h; subst h; cases hw
      simp [stripAngle, this]
    have h2 : stripScheme (w :: b) = none := by
      have : (w :: b) = [] ++ w :: b := rfl
      rw [this, stripScheme_ws_append hw]
      rfl
    unfold tryUrlAt
    rw [h1, h2]
    rfl
  | cons c s1 =>
    unfold tryUrlAt
    have hangle : stripAngle ((c :: s1) ++ w :: b) = stripAngle (c :: s1) ++ w :: b := by
      by_cases hc : c = '<'
      · subst hc; simp [stripAngle]
      · simp [stripAngle, hc]
    rw [hangle, stripScheme_ws_append hw]
    cases hsch : stripScheme (stripAngle (c :: s1)) with
    | none => rfl
    | some r =>
      simp only [Option.map_some]
      show (if ((r ++ w :: b).takeWhile nonspace).isEmpty = true then none
          else some (stripGt ((r ++ w :: b).dropWhile nonspace))) =
        Option.map (fun x => x ++ w :: b)
          (if ((r.takeWhile nonspace).isEmpty : Bool) = true then none
           else some (stripGt (r.dropWhile nonspace)))
      rw [takeWhile_ws_append hw, dropWhile_ws_append hw]
      by_cases hrun : (r.takeWhile nonspace).isEmpty
      · rw [if_pos hrun, if_pos hrun]
        rfl
      · rw [if_neg hrun, if_neg hrun]
        rw [stripGt_dropWhile_append hw]
        rfl

theorem tryUrlAt_space_head {w : Char} (hw : pySpace w = true) (b : List Char) :
    tryUrlAt (w :: b) = none := by
  have := tryUrlAt_ws_append hw [] b
  simpa using this

/-- A match never crosses a whitespace character, so the substitution scan
splits at it. -/
theorem subUrls_ws_split {w : Char} (hw : pySpace w = true) :
    ∀ (n : Nat) (a b : List Char), a.length ≤ n →
      subUrls (a ++ w :: b) = subUrls (a ++ [w]) ++ subUrls b := by
  intro n
  induction n with
  | zero =>
    intro a b ha
    have : a = [] := by
      cases a
      · rfl
      · simp at ha
    subst this
    simp only [List.nil_append]
    rw [subUrls_cons, tryUrlAt_space_head hw]
    rw [show subUrls [w] = w :: subUrls [] from by
      rw [subUrls_cons, tryUrlAt_space_head hw]]
    rfl
  | succ n ih =>
    intro a b ha
    cases a with
    | nil =>
      simp only [List.nil_append]
      rw [subUrls_cons, tryUrlAt_space_head hw]
      rw [show subUrls [w] = w :: subUrls [] from by
        rw [subUrls_cons, tryUrlAt_space_head hw]]
      rfl
    | cons c a1 =>
      have hzw : (c :: a1) ++ w :: b = c :: (a1 ++ w :: b) := rfl
      rw [hzw, subUrls_cons]
      have htl : tryUrlAt (c :: (a1 ++ w :: b)) =
          (tryUrlAt (c :: a1)).map (· ++ w :: b) := by
        have := tryUrlAt_ws_append hw (c :: a1) b
        simpa using this
      have hz1 : (c :: a1) ++ [w] = c :: (a1 ++ [w]) := rfl
      have htl1 : tryUrlAt (c :: (a1 ++ [w])) =
          (tryUrlAt (c :: a1)).map (· ++ [w]) := by
        have := tryUrlAt_ws_append hw (c :: a1) []
        simpa using this
      rw [htl]
      cases htry : tryUrlAt (c :: a1) with
      | none =>
        show c :: subUrls (a1 ++ w :: b) = _
        simp only [List.length_cons] at ha
        rw [ih a1 b (by omega)]
        rw [hz1, subUrls_cons, htl1, htry]
        show _ = (c :: subUrls (a1 ++ [w])) ++ subUrls b
        rfl
      | some r =>
        have hr : r.length < (c :: a1).length := tryUrlAt_length htry
        simp only [List.length_cons] at ha hr
        show urlPlaceholder ++ subUrls (r ++ w :: b) = _
        rw [ih r b (by omega)]
        rw [hz1, subUrls_cons, htl1, htry]
        show _ = (urlPlaceholder ++ subUrls (r ++ [w])) ++ subUrls b
        simp [List.append_assoc]

theorem dropLit_append_eq (lit : List Char) :
    ∀ x y, dropLit lit (x ++ y) =
      match dropLitP lit x with
      | .full r => some (r ++ y)
      | .part lit1 => dropLit lit1 y
      | .bad => none := by
  induction lit with
  | nil => intro x y; simp [dropLit, dropLitP]
  | cons a as ih =>
    intro x y
    cases x with
    | nil => simp [dropLitP]
    | cons b bs =>
      simp only [List.cons_append, dropLit, dropLitP]
      split
      · exact ih bs y
      · rfl

theorem dropLitP_full {lit x r : List Char} (h : dropLitP lit x = .full r) :
    x = lit ++ r := by
  induction lit generalizing x with
  | nil => simp [dropLitP] at h; simp [h]
  | cons a as ih =>
    cases x with
    | nil => simp [dropLitP] at h
    | cons b bs =>
      simp only [dropLitP] at h
      split at h
      · next hab => rw [List.cons_append, ← hab, ih h]
      · cases h

theorem dropLitP_part {lit x lit1 : List Char} (h : dropLitP lit x = .part lit1) :
    lit1 = lit.drop x.length ∧ x.length < lit.length := by
  induction lit generalizing x with
  | nil => simp [dropLitP] at h
  | cons a as ih =>
    cases x with
    | nil =>
      simp only [dropLitP, DLRes.part.injEq] at h
      subst h
      simp
    | cons b bs =>
      simp only [dropLitP] at h
      split at h
      · obtain ⟨h1, h2⟩ := ih h
        refine ⟨by simpa using h1, by simpa using h2⟩
      · cases h

theorem tryUrlAt_eq_urlBody (l : List Char) : tryUrlAt l = urlBody (stripAngle l) := rfl

/-- A partially consumed scheme literal never continues with `h` or `<`, so
a URL token cannot complete someone else's scheme. -/
theorem scheme_drop_head : ∀ n : Nat, 1 ≤ n →
    ((lit8.drop n).head? ≠ some 'h' ∧ (lit8.drop n).head? ≠ some '<') ∧
    ((lit7.drop n).head? ≠ some 'h' ∧ (lit7.drop n).head? ≠ some '<') := by
  intro n h1
  by_cases h8 : n < 8
  · interval_cases n <;> exact ⟨⟨by decide, by decide⟩, ⟨by decide, by decide⟩⟩
  · have e8 : lit8.drop n = [] := List.drop_of_length_le (by simp [lit8]; omega)
    have e7 : lit7.drop n = [] := List.drop_of_length_le (by simp [lit7]; omega)
    rw [e8, e7]
    exact ⟨⟨by decide, by decide⟩, ⟨by decide, by decide⟩⟩

theorem dropLit_part_token {lit x lit1 : List Char}
    (hlit : lit = lit8 ∨ lit = lit7) (hxne : x ≠ [])
    (hp : dropLitP lit x = .part lit1)
    {v : PyStr} (hv : isUrlToken v = true) (post : List Char) :
    dropLit lit1 (v ++ post) = none := by
  obtain ⟨h1, h2⟩ := dropLitP_part hp
  have hxlen : 1 ≤ x.length := by
    cases x
    · exact absurd rfl hxne
    · simp
  have hheads := scheme_drop_head x.length hxlen
  have hlit1 : lit1.head? ≠ some 'h' ∧ lit1.head? ≠ some '<' := by
    rcases hlit with rfl | rfl
    · rw [h1]; exact hheads.1
    · rw [h1]; exact hheads.2
  cases hl1 : lit1 with
  | nil =>
    have hdrop : lit.drop x.length = [] := by rw [← h1, hl1]
    have hle : lit.length ≤ x.length := List.drop_eq_nil_iff.mp hdrop
    exact absurd h2 (by omega)
  | cons l1h l1t =>
    have hvhead := token_head hv
    cases hv0 : v with
    | nil => exact absurd (hv0 ▸ hv) (by simp [isUrlToken, tryUrlAt, stripAngle, stripScheme, dropLit])
    | cons vh vt =>
      simp only [List.cons_append, dropLit]
      rw [if_neg]
      intro hcontra
      subst hcontra
      rw [hv0] at hvhead
      simp only [List.head?_cons, Option.some.injEq] at hvhead
      rw [hl1] at hlit1
      simp only [List.head?_cons, ne_eq, Option.some.injEq] at hlit1
      rcases hvhead with rfl | rfl
      · exact hlit1.2 rfl
      · exact hlit1.1 rfl

theorem all_append_right {p : Char → Bool} {a b : List Char}
    (h : (a ++ b).all p = true) : b.all p = true := by
  rw [List.all_append, Bool.and_eq_true] at h
  exact h.2

/-- Whether a scheme literal matches at the start of `x ++ v ++ post`
depends only on the non-empty whitespace-free prefix `x`, never on the URL
token `v` that follows it. -/
theorem dropLit_sf_cases {lit : List Char} (hlit : lit = lit8 ∨ lit = lit7)
    {x : PyStr} (hxne : x ≠ []) (post : List Char) :
    (∀ v : PyStr, isUrlToken v = true → dropLit lit (x ++ v ++ post) = none) ∨
    (∃ r, dropLit lit x = some r ∧
      ∀ v : PyStr, isUrlToken v = true →
        dropLit lit (x ++ v ++ post) = some (r ++ v ++ post)) := by
  cases hP : dropLitP lit x with
  | full r =>
    refine .inr ⟨r, ?_, ?_⟩
    · exact dropLit_iff.mpr (dropLitP_full hP)
    · intro v hv
      rw [show x ++ v ++ post = x ++ (v ++ post) from by simp,
        dropLit_append_eq, hP]
      simp [List.append_assoc]
  | part lit1 =>
    refine .inl fun v hv => ?_
    rw [show x ++ v ++ post = x ++ (v ++ post) from by simp,
      dropLit_append_eq, hP]
    exact dropLit_part_token hlit hxne hP hv post
  | bad =>
    refine .inl fun v hv => ?_
    rw [show x ++ v ++ post = x ++ (v ++ post) from by simp,
      dropLit_append_eq, hP]

theorem stripScheme_sf_cases {x : PyStr} (hx : spaceFree x = true)
    (hxne : x ≠ []) (post : List Char) :
    (∀ v : PyStr, isUrlToken v = true →
      stripScheme (x ++ v ++ post) = none) ∨
    (∃ r, r.all nonspace = true ∧
      ∀ v : PyStr, isUrlToken v = true →
        stripScheme (x ++ v ++ post) = some (r ++ v ++ post)) := by
  rcases dropLit_sf_cases (.inl rfl) hxne post with h8 | ⟨r, hr8, h8⟩
  · rcases dropLit_sf_cases (.inr rfl) hxne post with h7 | ⟨r, hr7, h7⟩
    · refine .inl fun v hv => ?_
      unfold stripScheme
      rw [h8 v hv, h7 v hv]
    · refine .inr ⟨r, ?_, fun v hv => ?_⟩
      · have := dropLit_iff.mp hr7
        rw [this] at hx
        exact all_append_right hx
      · unfold stripScheme
        rw [h8 v hv, h7 v hv]
  · refine .inr ⟨r, ?_, fun v hv => ?_⟩
    · have := dropLit_iff.mp hr8
      rw [this] at hx
      exact all_append_right hx
    · unfold stripScheme
      rw [h8 v hv]

/-- The whole post-angle URL match on `x ++ v ++ post` either fails for
every token `v`, or succeeds for every token `v` with the same remainder,
the suffix of `post` after its leading whitespace-free run. -/
theorem urlBody_sf_cases {x : PyStr} (hx : spaceFree x = true)
    (hxne : x ≠ []) (post : List Char) :
    (∀ v : PyStr, isUrlToken v = true → urlBody (x ++ v ++ post) = none) ∨
    (∀ v : PyStr, isUrlToken v = true →
      urlBody (x ++ v ++ post) = some (post.dropWhile nonspace)) := by
  rcases stripScheme_sf_cases hx hxne post with h | ⟨r, hrall, h⟩
  · refine .inl fun v hv => ?_
    unfold urlBody
    rw [h v hv]
  · refine .inr fun v hv => ?_
    unfold urlBody
    rw [h v hv]
    have hvall : v.all nonspace = true := token_spaceFree hv
    have hvne : v ≠ [] := token_ne_nil hv
    show (if ((r ++ v ++ post).takeWhile nonspace).isEmpty = true then none
        else some (stripGt ((r ++ v ++ post).dropWhile nonspace))) =
      some (post.dropWhile nonspace)
    rw [show r ++ v ++ post = r ++ (v ++ post) from by simp,
      takeWhile_append_of_all hrall, dropWhile_append_of_all hrall,
      takeWhile_append_of_all hvall, dropWhile_append_of_all hvall]
    have hne : (r ++ (v ++ post.takeWhile nonspace)).isEmpty = false := by
      cases hv0 : v with
      | nil => exact absurd hv0 hvne
      | cons a t =>
        cases r <;> rfl
    rw [hne]
    simp [stripGt_dropWhile_nonspace]

theorem subUrls_token_append {u : PyStr} (hu : isUrlToken u = true)
    (post : List Char) :
    subUrls (u ++ post) = urlPlaceholder ++ subUrls (post.dropWhile nonspace) := by
  cases hu0 : u with
  | nil => exact absurd hu0 (token_ne_nil hu)
  | cons c cu =>
    rw [show (c :: cu) ++ post = c :: (cu ++ post) from rfl, subUrls_cons]
    have htry : tryUrlAt (c :: (cu ++ post)) = some (post.dropWhile nonspace) := by
      have h3 := token_append hu post
      rw [hu0] at h3
      exact h3
    rw [htry]

theorem tryUrlAt_angle_bare {u : PyStr} (hu : isUrlToken u = true)
    (hh : u.head? = some 'h') (post : List Char) :
    tryUrlAt ('<' :: (u ++ post)) = some (post.dropWhile nonspace) := by
  have h1 : tryUrlAt ('<' :: (u ++ post)) = urlBody (u ++ post) := by
    rw [tryUrlAt_eq_urlBody]
    rfl
  have h2 : stripAngle (u ++ post) = u ++ post := by
    cases hu0 : u with
    | nil => simp [hu0] at hh
    | cons c cu =>
      rw [hu0] at hh
      simp only [List.head?_cons, Option.some.injEq] at hh
      subst hh
      rfl
  have h3 := token_append hu post
  rw [tryUrlAt_eq_urlBody, h2] at h3
  rw [h1, h3]

theorem urlBody_angle (y : List Char) : urlBody ('<' :: y) = none := rfl

theorem token_head_angle {u : PyStr} (hh : u.head? = some '<') :
    ∃ u1, u = '<' :: u1 := by
  cases u with
  | nil => simp at hh
  | cons c cu =>
    simp only [List.head?_cons, Option.some.injEq] at hh
    exact ⟨cu, by rw [hh]⟩

theorem getLast?_cons_ne {c : Char} {l : List Char} (h : l ≠ []) :
    (c :: l).getLast? = l.getLast? := by
  cases l with
  | nil => exact absurd rfl h
  | cons b t => simp [List.getLast?_cons_cons]

theorem stripAngle_cons_append (c : Char) (s1 y : List Char) :
    stripAngle ((c :: s1) ++ y) = stripAngle (c :: s1) ++ y := by
  by_cases hc : c = '<'
  · subst hc; simp [stripAngle]
  · simp [stripAngle, hc]

/-- The central walk: over a whitespace-free prefix, replacing one URL token
by another never changes the substitution result, provided the two tokens
agree on starting with `<` whenever the prefix ends with `<`. -/
theorem subUrls_replace_sf {u u' : PyStr}
    (hu : isUrlToken u = true) (hu' : isUrlToken u' = true) :
    ∀ s : PyStr, spaceFree s = true →
      (s.getLast? = some '<' → (u.head? = some '<' ↔ u'.head? = some '<')) →
      ∀ post, subUrls (s ++ u ++ post) = subUrls (s ++ u' ++ post) := by
  intro s
  induction s with
  | nil =>
    intro _ _ post
    simp only [List.nil_append]
    rw [subUrls_token_append hu post, subUrls_token_append hu' post]
  | cons c s1 ih =>
    intro hsf hcond post
    have hsf1 : spaceFree s1 = true := by
      unfold spaceFree at hsf ⊢
      simp only [List.all_cons, Bool.and_eq_true] at hsf
      exact hsf.2
    by_cases hangle : c = '<' ∧ s1 = []
    · obtain ⟨rfl, rfl⟩ := hangle
      have hagree := hcond rfl
      rcases token_head hu with hH | hH
      · -- both tokens angle-delimited: no match at the '<', recurse past it
        have hH' : u'.head? = some '<' := hagree.mp hH
        obtain ⟨u1, rfl⟩ := token_head_angle hH
        obtain ⟨u1', rfl⟩ := token_head_angle hH'
        have e1 : (['<'] ++ ('<' :: u1) ++ post) = '<' :: (('<' :: u1) ++ post) := rfl
        have e2 : (['<'] ++ ('<' :: u1') ++ post) = '<' :: (('<' :: u1') ++ post) := rfl
        rw [e1, e2, subUrls_cons, subUrls_cons]
        have t1 : tryUrlAt ('<' :: (('<' :: u1) ++ post)) = none := by
          rw [tryUrlAt_eq_urlBody]
          have : stripAngle ('<' :: (('<' :: u1) ++ post)) = ('<' :: u1) ++ post := rfl
          rw [this]
          exact urlBody_angle _
        have t2 : tryUrlAt ('<' :: (('<' :: u1') ++ post)) = none := by
          rw [tryUrlAt_eq_urlBody]
          have : stripAngle ('<' :: (('<' :: u1') ++ post)) = ('<' :: u1') ++ post := rfl
          rw [this]
          exact urlBody_angle _
        rw [t1, t2]
        have := ih (by rfl) (fun h => absurd h (by simp)) post
        simp only [List.nil_append] at this
        rw [this]
      · -- both tokens bare: the '<' is consumed by `<?`, match succeeds
        have hH' : u'.head? = some 'h' := by
          rcases token_head hu' with h' | h'
          · exact absurd (hagree.mpr h') (by rw [hH]; simp)
          · exact h'
        have e1 : (['<'] ++ u ++ post) = '<' :: (u ++ post) := rfl
        have e2 : (['<'] ++ u' ++ post) = '<' :: (u' ++ post) := rfl
        rw [e1, e2, subUrls_cons, subUrls_cons,
          tryUrlAt_angle_bare hu hH post, tryUrlAt_angle_bare hu' hH' post]
    · -- the prefix is not the single character '<'
      have hx : ∃ x, (∀ y, stripAngle ((c :: s1) ++ y) = x ++ y) ∧
          x ≠ [] ∧ spaceFree x = true := by
        by_cases hc : c = '<'
        · subst hc
          have hs1 : s1 ≠ [] := fun h => hangle ⟨rfl, h⟩
          exact ⟨s1, fun y => by simp [stripAngle], hs1, hsf1⟩
        · refine ⟨c :: s1, fun y => ?_, by simp, hsf⟩
          rw [stripAngle_cons_append]
          simp [stripAngle, hc]
      obtain ⟨x, hxeq, hxne, hxsf⟩ := hx
      have hcond1 : s1.getLast? = some '<' →
          (u.head? = some '<' ↔ u'.head? = some '<') := by
        intro h
        apply hcond
        have hs1 : s1 ≠ [] := by
          intro hnil
          rw [hnil] at h
          simp at h
        rw [getLast?_cons_ne hs1]
        exact h
      have e1 : (c :: s1) ++ u ++ post = c :: (s1 ++ u ++ post) := by simp
      have e2 : (c :: s1) ++ u' ++ post = c :: (s1 ++ u' ++ post) := by simp
      have tb1 : tryUrlAt ((c :: s1) ++ u ++ post) =
          urlBody (x ++ u ++ post) := by
        rw [tryUrlAt_eq_urlBody,
          show (c :: s1) ++ u ++ post = (c :: s1) ++ (u ++ post) from by simp,
          hxeq (u ++ post),
          show x ++ (u ++ post) = x ++ u ++ post from by simp]
      have tb2 : tryUrlAt ((c :: s1) ++ u' ++ post) =
          urlBody (x ++ u' ++ post) := by
        rw [tryUrlAt_eq_urlBody,
          show (c :: s1) ++ u' ++ post = (c :: s1) ++ (u' ++ post) from by simp,
          hxeq (u' ++ post),
          show x ++ (u' ++ post) = x ++ u' ++ post from by simp]
      rcases urlBody_sf_cases hxsf hxne post with hnone | hsome
      · rw [e1, e2, subUrls_cons, subUrls_cons]
        rw [show tryUrlAt (c :: (s1 ++ u ++ post)) = none from by
            rw [← e1, tb1]; exact hnone u hu,
          show tryUrlAt (c :: (s1 ++ u' ++ post)) = none from by
            rw [← e2, tb2]; exact hnone u' hu']
        rw [ih hsf1 hcond1 post]
      · rw [e1, e2, subUrls_cons, subUrls_cons]
        rw [show tryUrlAt (c :: (s1 ++ u ++ post)) =
              some (post.dropWhile nonspace) from by
            rw [← e1, tb1]; exact hsome u hu,
          show tryUrlAt (c :: (s1 ++ u' ++ post)) =
              some (post.dropWhile nonspace) from by
            rw [← e2, tb2]; exact hsome u' hu']

theorem exists_last_space {l : PyStr} (h : spaceFree l = false) :
    ∃ a w b, l = a ++ w :: b ∧ pySpace w = true ∧ spaceFree b = true := by
  induction l with
  | nil => simp [spaceFree] at h
  | cons c cs ih =>
    by_cases hcs : spaceFree cs = true
    · have hc : nonspace c = false := by
        unfold spaceFree at h hcs
        simp only [List.all_cons] at h
        rw [hcs, Bool.and_true] at h
        exact h
      have hw : pySpace c = true := by
        unfold nonspace at hc
        cases hp : pySpace c
        · rw [hp] at hc; cases hc
        · rfl
      exact ⟨[], c, cs, rfl, hw, hcs⟩
    · obtain ⟨a, w, b, heq, hw, hb⟩ := ih (Bool.not_eq_true _ ▸ hcs)
      exact ⟨c :: a, w, b, by rw [heq]; rfl, hw, hb⟩

/-- Replacing one URL-pattern token by another in a string never changes its
normalization, provided the two tokens agree on beginning with `<` whenever
the character immediately before the occurrence is `<`. -/
theorem subUrls_replace {u u' : PyStr}
    (hu : isUrlToken u = true) (hu' : isUrlToken u' = true)
    (pre post : PyStr)
    (hcond : pre.getLast? = some '<' →
      (u.head? = some '<' ↔ u'.head? = some '<')) :
    subUrls (pre ++ u ++ post) = subUrls (pre ++ u' ++ post) := by
  cases hsf : spaceFree pre with
  | true => exact subUrls_replace_sf hu hu' pre hsf hcond post
  | false =>
    obtain ⟨a, w, b, rfl, hw, hb⟩ := exists_last_space hsf
    have e : ∀ v : PyStr, (a ++ w :: b) ++ v ++ post = a ++ w :: (b ++ v ++ post) := by
      intro v; simp
    rw [e u, e u',
      subUrls_ws_split hw a.length a (b ++ u ++ post) (le_refl _),
      subUrls_ws_split hw a.length a (b ++ u' ++ post) (le_refl _)]
    have hcond1 : b.getLast? = some '<' →
        (u.head? = some '<' ↔ u'.head? = some '<') := by
      intro h
      apply hcond
      have hbne : b ≠ [] := by
        intro hnil
        rw [hnil] at h
        simp at h
      rw [show a ++ w :: b = a ++ [w] ++ b from by simp,
        List.getLast?_append_of_ne_nil _ hbne]
      exact h
    rw [subUrls_replace_sf hu hu' b hb hcond1 post]

theorem pyLower_append (a b : PyStr) : pyLower (a ++ b) = pyLower a ++ pyLower b :=
  List.map_append _ a b

/-- Claim C6 counterexample: `matches` is not invariant under replacing a
URL substring with another syntactically valid URL.  In the content
`"<<https://a>"` the URL pattern matches `"<https://a>"` (the whole string
normalizes to `"<<URL>"`); replacing that occurrence with the valid URL
`"https://b"` yields `"<https://b"`, which normalizes to `"<URL>"` — the
preceding `<` is absorbed into the new match.  For the prompt
`"<<https://z"` (normalized `"<<URL>"`) the match flips from true to
false. -/
theorem claim_C6_counterexample :
    isUrlToken (pyLower "<https://a>".data) = true ∧
    isUrlToken (pyLower "https://b".data) = true ∧
    "<<https://a>".data = "<".data ++ "<https://a>".data ++ ([] : List Char) ∧
    "<https://b".data = "<".data ++ "https://b".data ++ ([] : List Char) ∧
    subUrls "<<https://a>".data = "<<URL>".data ∧
    _match_mid_journey_prompt_ignoring_urls "<<https://z".data
      "<<https://a>".data = true ∧
    _match_mid_journey_prompt_ignoring_urls "<<https://z".data
      "<https://b".data = false := by
  exact ⟨rfl, rfl, rfl, rfl, rfl, rfl, rfl⟩

/-- Claim C6 amended: `matches(P, C)` is invariant under replacing a URL
substring (a full match of the URL pattern) in either argument with any
other syntactically valid URL, provided that whenever the character
immediately preceding the occurrence is `<`, the old and the new URL agree
on whether they begin with `<`. -/
theorem claim_C6_url_invariance (p pre u u' post : PyStr)
    (hu : isUrlToken (pyLower u) = true)
    (hu' : isUrlToken (pyLower u') = true)
    (hcond : (pyLower pre).getLast? = some '<' →
      ((pyLower u).head? = some '<' ↔ (pyLower u').head? = some '<')) :
    _match_mid_journey_prompt_ignoring_urls p (pre ++ u ++ post) =
      _match_mid_journey_prompt_ignoring_urls p (pre ++ u' ++ post) ∧
    _match_mid_journey_prompt_ignoring_urls (pre ++ u ++ post) p =
      _match_mid_journey_prompt_ignoring_urls (pre ++ u' ++ post) p := by
  have key : subUrls (pyLower (pre ++ u ++ post)) =
      subUrls (pyLower (pre ++ u' ++ post)) := by
    rw [pyLower_append, pyLower_append, pyLower_append, pyLower_append]
    exact subUrls_replace hu hu' (pyLower pre) (pyLower post) hcond
  unfold _match_mid_journey_prompt_ignoring_urls
  rw [key]
  exact ⟨rfl, rfl⟩

/-- Witness for the amended C6: a URL in the middle of a message content is
replaced by an angle-delimited URL without changing the match. -/
theorem claim_C6_url_invariance_witness :
    _match_mid_journey_prompt_ignoring_urls "a cat".data
        ("a cat ".data ++ "https://x.com/a".data ++ " - @alice (".data) =
      _match_mid_journey_prompt_ignoring_urls "a cat".data
        ("a cat ".data ++ "<https://x.com/b>".data ++ " - @alice (".data) ∧
    _match_mid_journey_prompt_ignoring_urls
        ("a cat ".data ++ "https://x.com/a".data ++ " - @alice (".data)
        "a cat".data =
      _match_mid_journey_prompt_ignoring_urls
        ("a cat ".data ++ "<https://x.com/b>".data ++ " - @alice (".data)
        "a cat".data :=
  claim_C6_url_invariance "a cat".data "a cat ".data "https://x.com/a".data
    "<https://x.com/b>".data " - @alice (".data rfl rfl
    (fun h => absurd h (by decide))
